import Mathlib

/-!
# Verification of the Glycresoft chromatogram aggregation core

This development gives a shallow embedding, in Lean 4, of the chromatogram
grouping, merging, adduct-resolution, composition-network and scoring code of
the `glycan_profiling` package, and proves (or refutes) the behavioural claims
made about it.

Conventions used throughout:

* Python floats are modelled as exact rationals (`ℚ`).  All the properties at
  stake here (sortedness, tolerance comparisons, exact zeroes of binomial tail
  sums, fixed-point rendering with `%f`) are decided by exact arithmetic on the
  values appearing in the program, so no floating-point rounding model is
  needed; where a claim depends essentially on a float-only phenomenon this is
  called out at the theorem.
* Python-2 integer division `/` on ints is `Nat` division.
* Python list indexing, which accepts negative indices (counting from the end)
  and raises `IndexError` out of range, is modelled by `pyIdx?` / `pyGet?`.
* Fallible code returns `Option`/`Except`; an uncaught Python exception is
  `none` / `.error`.
-/

/- Rational arithmetic must reduce inside the kernel so that concrete runs of
the embedded program can be checked by `decide`. -/
unseal Rat.mul Rat.add Rat.sub Rat.inv

/-- Resolve a Python list index (which may be negative, counting from the
end) against a list length.  `none` models an `IndexError`. -/
def pyIdx? (n : ℕ) (i : ℤ) : Option ℕ :=
  if 0 ≤ i then
    if i < (n : ℤ) then some i.toNat else none
  else
    if 0 ≤ i + (n : ℤ) then some (i + (n : ℤ)).toNat else none

/-- Python `xs[i]` with negative-index wraparound; `none` is an `IndexError`. -/
def pyGet? {α : Type} (xs : List α) (i : ℤ) : Option α :=
  (pyIdx? xs.length i).bind fun j => xs.get? j

/-- Python `xs[i]` in contexts where the index is known to be in range; falls
back to `d` (never actually reached in the guarded call sites). -/
def pyGetD {α : Type} (xs : List α) (i : ℤ) (d : α) : α :=
  (pyGet? xs i).getD d

/-- Python `xs.insert(i, x)` (list insertion; indices past the end append,
negative indices count from the end, clamping at 0). -/
def pyInsert {α : Type} (xs : List α) (i : ℤ) (x : α) : List α :=
  let j : ℕ := if 0 ≤ i then min i.toNat xs.length
               else (max (i + (xs.length : ℤ)) 0).toNat
  xs.take j ++ x :: xs.drop j

/-- Python `list(range(a, b))` over integers. -/
def pyRange (a b : ℤ) : List ℤ :=
  (List.range (b - a).toNat).map fun (k : ℕ) => a + (k : ℤ)

/-- Element access at an index known to be in range (the enclosing loops all
check or maintain the bound; the default is never reached there). -/
def elemAt (arr : List ℚ) (j : ℕ) : ℚ := arr.getD j 0

/-- The relative mass error `(x - mass) / mass` used throughout the grouping
module. -/
def relErr (x mass : ℚ) : ℚ := (x - mass) / mass

/-- `|relErr x mass| ≤ tol`: the tolerance test used by the grouping module
(`abs(err) <= error_tolerance`). -/
def inTol (mass tol x : ℚ) : Prop := |relErr x mass| ≤ tol

instance (mass tol x : ℚ) : Decidable (inTol mass tol x) := by
  unfold inTol; infer_instance

/-! ## `binary_search_with_flag` (grouping.py, lines 240-278)

The version in `glycan_profiling/chromatogram_tree/grouping.py`: on a match it
sweeps outward from the matched midpoint and returns
`list(range(low_end, high_end)), True`.  The function reads only the
`neutral_mass` attribute of the array elements, so it is embedded over the
projected list of masses.  Python-2 `/` on ints is floor division. -/

/-- The "Sweep forward" loop of `binary_search_with_flag` (which walks
*backward*, decreasing `i` from `mid - 1` while `i > 0` and the element stays
within tolerance).  Returns the final value of `i` (`low_end`).  `fuel`
(always supplied ≥ `i.toNat`) makes the recursion structural so that concrete
runs reduce in the kernel; it never runs out on the wrapper's call. -/
def sweepLowF (arr : List ℚ) (mass tol : ℚ) : ℕ → ℤ → ℤ
  | 0, i => i
  | fuel + 1, i =>
    if 0 < i then
      -- `array[i]`: the caller starts at `mid - 1 < len(array)`, so the access
      -- is always in range when `0 < i`.
      if |relErr (elemAt arr i.toNat) mass| ≤ tol then sweepLowF arr mass tol fuel (i - 1)
      else i
    else i

/-- `low_end` sweep entry point: starts at `i` with enough fuel. -/
def sweepLow (arr : List ℚ) (mass tol : ℚ) (i : ℤ) : ℤ :=
  sweepLowF arr mass tol (i.toNat + 1) i

/-- The "Sweep backward" loop (which walks *forward*, increasing `i` from
`mid + 1` while `i < n` and the element stays within tolerance).  Returns the
final value of `i` (`high_end`). -/
def sweepHighF (arr : List ℚ) (mass tol : ℚ) : ℕ → ℕ → ℕ
  | 0, i => i
  | fuel + 1, i =>
    if i < arr.length then
      if |relErr (elemAt arr i) mass| ≤ tol then sweepHighF arr mass tol fuel (i + 1)
      else i
    else i

/-- `high_end` sweep entry point: starts at `i` with enough fuel. -/
def sweepHigh (arr : List ℚ) (mass tol : ℚ) (i : ℕ) : ℕ :=
  sweepHighF arr mass tol (arr.length + 1 - i) i

/-- The bisection loop of `binary_search_with_flag` (grouping.py).  Returns
the Python pair `(list_of_indices, flag)`.  The Python function returns the
bare int `0` (not a list) when the loop never runs (`len(array) == 0`); every
caller guards that case, and it is rendered here as `([], false)`.
`fuel ≥ hi - lo` always holds at the call sites, so the out-of-fuel branch
coincides with the loop-exit branch. -/
def bsLoop (arr : List ℚ) (mass tol : ℚ) : ℕ → (lo hi : ℕ) → List ℤ × Bool
  | 0, _, _ => ([], false)
  | fuel + 1, lo, hi =>
    if lo < hi then
      let mid := (hi + lo) / 2
      -- `array[mid]`: `mid < hi ≤ len(array)` at every call, so in range.
      let err := relErr (elemAt arr mid) mass
      if |err| ≤ tol then
        let lowEnd := sweepLow arr mass tol ((mid : ℤ) - 1)
        let highEnd := sweepHigh arr mass tol (mid + 1)
        (pyRange lowEnd highEnd, true)
      else if hi - lo = 1 then ([(mid : ℤ)], false)
      else if 0 < err then bsLoop arr mass tol fuel lo mid
      else bsLoop arr mass tol fuel mid hi
    else ([], false)

/-- `binary_search_with_flag(array, mass, error_tolerance)` from
`chromatogram_tree/grouping.py`, over the projected list of neutral masses. -/
def binarySearchWithFlag (arr : List ℚ) (mass : ℚ) (tol : ℚ := 1/100000) :
    List ℤ × Bool :=
  bsLoop arr mass tol arr.length 0 arr.length

/-- What `binary_search_with_flag` (grouping.py) actually returns on a match:
the half-open index range `[low_end, high_end)`, where every index strictly
above `low_end` is within tolerance, every within-tolerance index lies in the
range (`low_end` itself may be a position *outside* the tolerance window, or
even `-1`), and `high_end` excludes the first out-of-tolerance position. -/
def matchedRangeChar (arr : List ℚ) (mass tol : ℚ) (l : List ℤ) : Prop :=
  ∃ (lowEnd : ℤ) (highEnd : ℕ),
    l = pyRange lowEnd highEnd ∧
    -1 ≤ lowEnd ∧ lowEnd + 2 ≤ (highEnd : ℤ) ∧ highEnd ≤ arr.length ∧
    (∀ j : ℕ, lowEnd < (j : ℤ) → j < highEnd → inTol mass tol (elemAt arr j)) ∧
    (∀ j : ℕ, j < arr.length → inTol mass tol (elemAt arr j) →
      lowEnd ≤ (j : ℤ) ∧ j < highEnd)

/-- Stable insertion for `stableSort`: a new element goes after every
existing element `y` with `le y x`, so equal elements keep their original
order, matching Python's stable `sorted`. -/
def stableInsert {α : Type} (le : α → α → Bool) (x : α) : List α → List α
  | [] => [x]
  | y :: ys => if le y x then y :: stableInsert le x ys else x :: y :: ys

/-- Python's stable `sorted(key=..., reverse=...)`, rendered as an insertion
sort by the boolean relation `le` (kernel-reducible, unlike `mergeSort`). -/
def stableSort {α : Type} (le : α → α → Bool) (l : List α) : List α :=
  l.foldl (fun acc x => stableInsert le x acc) []

instance {ε α : Type} [DecidableEq ε] [DecidableEq α] :
    DecidableEq (Except ε α)
  | .ok a, .ok b =>
    if h : a = b then .isTrue (by rw [h])
    else .isFalse (by intro hc; injection hc; contradiction)
  | .error a, .error b =>
    if h : a = b then .isTrue (by rw [h])
    else .isFalse (by intro hc; injection hc; contradiction)
  | .ok _, .error _ => .isFalse (by intro hc; injection hc)
  | .error _, .ok _ => .isFalse (by intro hc; injection hc)

/-! ## The Chromatogram data model

The class `Chromatogram` lives in
`glycan_profiling/chromatogram_tree/chromatogram.py`, which is not among the
sources (only its callers are); the fields and operations used by the
grouping, tracing and pruning code are therefore modelled from the
specification (spec.md sections 3, 4.1, 4.2, 4.4). -/

/-- Modelled from the spec: a deconvoluted peak record, carrying
`neutral_mass` and `intensity` as consumed by the aggregation core (spec
section 6). -/
structure Peak where
  mass : ℚ
  intensity : ℚ
deriving DecidableEq, Repr

/-- Modelled from the spec: one node of a chromatogram: a scan id, the scan
retention time, the peak observations for that scan, and the node type
(`Unmodified`, or an adduct name after `merge(..., node_type=adduct)`). -/
structure CNode where
  scan : ℕ
  rt : ℚ
  members : List Peak
  kind : String
deriving DecidableEq, Repr

/-- Modelled from the spec: the `Chromatogram` data model (spec section 3):
an optional composition identity, an identity key, the node sequence, the
`used_as_adduct` back-references `(owner key, adduct name)`, the contributing
adduct names, and the `created_at` provenance tag. -/
structure Chrom where
  composition : Option String
  key : String
  nodes : List CNode
  usedAsAdduct : List (String × String)
  adducts : List String
  createdAt : String
deriving DecidableEq, Repr

instance : Inhabited Chrom := ⟨⟨none, "", [], [], [], ""⟩⟩

/-- All peak observations of a chromatogram, in node order. -/
def Chrom.peaks (c : Chrom) : List Peak := c.nodes.flatMap CNode.members

/-- Modelled from the spec: the most abundant constituent peak (spec section
3); the missing source leaves ties unspecified, and this model breaks them
towards the earliest-inserted peak. -/
def firstMaxPeak : List Peak → Option Peak
  | [] => none
  | p :: ps =>
    match firstMaxPeak ps with
    | none => some p
    | some q => if q.intensity > p.intensity then some q else some p

/-- Modelled from the spec: `neutral_mass` is derived from the most abundant
constituent peak (spec section 3); `0` for an empty chromatogram (a state the
callers never query). -/
def Chrom.neutralMass (c : Chrom) : ℚ :=
  ((firstMaxPeak c.peaks).map Peak.mass).getD 0

/-- Modelled from the spec: `start_time` is the minimum retention time across
nodes (spec section 3). -/
def Chrom.startTime (c : Chrom) : ℚ :=
  ((c.nodes.map CNode.rt).min?).getD 0

/-- Modelled from the spec: `end_time` is the maximum retention time across
nodes (spec section 3). -/
def Chrom.endTime (c : Chrom) : ℚ :=
  ((c.nodes.map CNode.rt).max?).getD 0

/-- Modelled from the spec: `total_signal` is the sum of the observed
intensities (spec section 3). -/
def Chrom.totalSignal (c : Chrom) : ℚ :=
  (c.peaks.map Peak.intensity).sum

/-- Modelled from the spec: `insert(scan_id, peak, retention_time)` adds one
observation (spec sections 3 and 4.2).  `neutral_mass`, `start_time` and
`end_time` are derived attributes here, so the
`retain_most_abundant_member` reference-mass bookkeeping is implicit. -/
def Chrom.insertPeak (c : Chrom) (scan : ℕ) (p : Peak) (rt : ℚ) : Chrom :=
  { c with nodes := c.nodes ++ [⟨scan, rt, [p], "Unmodified"⟩] }

/-- `Chromatogram(None)` freshly created by `ChromatogramForest.handle_peak`
(grouping.py lines 60-63): `created_at = "forest"` and one observation. -/
def freshChrom (scan : ℕ) (p : Peak) (rt : ℚ) : Chrom :=
  Chrom.insertPeak ⟨none, "", [], [], [], "forest"⟩ scan p rt

/-! ## ChromatogramForest (grouping.py, lines 9-87) -/

/-- Python `xs[i] = v` (the call sites keep `i` in range). -/
def pySet {α : Type} (xs : List α) (i : ℤ) (x : α) : List α :=
  match pyIdx? xs.length i with
  | some j => xs.set j x
  | none => xs

/-- The relative error `abs(chroma.neutral_mass - target)/target` minimised
by `find_minimizing_index`. -/
def errQ (cs : List Chrom) (target : ℚ) (i : ℤ) : ℚ :=
  |(pyGetD cs i default).neutralMass - target| / target

/-- `find_minimizing_index` (grouping.py lines 36-45 and 116-125): scan the
candidate indices, keeping the first index of strictly smallest relative
error.  Returns `none` (Python `None`) only on an empty candidate list. -/
def findMinStep (cs : List Chrom) (target : ℚ) (acc : Option (ℤ × ℚ)) (idx : ℤ) :
    Option (ℤ × ℚ) :=
  match acc with
  | none => some (idx, errQ cs target idx)
  | some (bi, be) =>
    if errQ cs target idx < be then some (idx, errQ cs target idx)
    else some (bi, be)

def findMinimizingIndex (cs : List Chrom) (target : ℚ) (indices : List ℤ) :
    Option ℤ :=
  (indices.foldl (findMinStep cs target) none).map Prod.fst

/-- `insert_chromatogram` (identical in `ChromatogramForest`, lines 66-78,
and `ChromatogramMerger`, lines 154-166): insert at `index[0] + 1` when
`index[0] != 0`, otherwise before or after position 0 according to the mass
found there. -/
def insertChromatogram (cs : List Chrom) (c : Chrom) (index : List ℤ) :
    List Chrom :=
  let i0 := index.headD 0
  if i0 ≠ 0 then pyInsert cs (i0 + 1) c
  else if cs.length = 0 then pyInsert cs 0 c
  else if (pyGetD cs i0 default).neutralMass < c.neutralMass then pyInsert cs 1 c
  else pyInsert cs 0 c

/-- `ChromatogramForest.handle_peak` (grouping.py lines 47-64).  On a mass
match the peak is inserted into the candidate minimising relative mass error
(`retain_most_abundant_member` is implicit because `neutral_mass` is derived
here); otherwise a fresh single-peak chromatogram is inserted at the sorted
position.  The `none` branch of the match is unreachable: a matched index
list is never empty. -/
def handlePeak (tol : ℚ) (rtOf : ℕ → ℚ) (cs : List Chrom) (scan : ℕ)
    (p : Peak) : List Chrom :=
  if cs.length = 0 then
    insertChromatogram cs (freshChrom scan p (rtOf scan)) [0]
  else
    let res := binarySearchWithFlag (cs.map Chrom.neutralMass) p.mass tol
    if res.2 then
      match findMinimizingIndex cs p.mass res.1 with
      | some best =>
        pySet cs best ((pyGetD cs best default).insertPeak scan p (rtOf scan))
      | none => cs
    else
      insertChromatogram cs (freshChrom scan p (rtOf scan)) res.1

/-- `ChromatogramForest.aggregate_unmatched_peaks` (grouping.py lines 80-87):
stable-sort by descending intensity and feed every sufficiently heavy,
sufficiently intense peak through `handle_peak`. -/
def aggregateUnmatchedPeaks (tol : ℚ) (rtOf : ℕ → ℚ) (cs : List Chrom)
    (scanPeaks : List (ℕ × Peak)) (minimumMass : ℚ := 300)
    (minimumIntensity : ℚ := 1000) : List Chrom :=
  let unmatched := stableSort
    (fun a b => decide (b.2.intensity ≤ a.2.intensity)) scanPeaks
  unmatched.foldl
    (fun acc sp =>
      if sp.2.mass < minimumMass ∨ sp.2.intensity < minimumIntensity then acc
      else handlePeak tol rtOf acc sp.1 sp.2)
    cs

/-! ## Time overlap, merging, and the merger (grouping.py 90-171, trace.py 218-225) -/

/-- `span_overlap` (trace.py lines 218-225), the symmetric 5-case interval
overlap predicate; the spec requires `Chromatogram.overlaps_in_time` to
replicate it bit-for-bit, and this embedding uses it for both. -/
def spanOverlap (s i : Chrom) : Bool :=
  decide ((s.startTime ≤ i.startTime ∧ i.endTime ≤ s.endTime) ∨
    (i.startTime ≤ s.startTime ∧ s.endTime ≤ i.endTime) ∨
    (i.startTime ≤ s.startTime ∧ i.endTime ≤ s.endTime ∧ s.startTime ≤ i.endTime) ∨
    (s.startTime ≤ i.startTime ∧ i.startTime ≤ s.endTime) ∨
    (s.startTime ≤ i.endTime ∧ i.endTime ≤ s.endTime))

/-- Stable insertion keeping retention-time order (later-inserted nodes go
after earlier nodes with the same retention time). -/
def insertByRt (n : CNode) : List CNode → List CNode
  | [] => [n]
  | m :: ms => if n.rt < m.rt then n :: m :: ms else m :: insertByRt n ms

/-- Stable sort of chromatogram nodes by retention time. -/
def sortByRt (l : List CNode) : List CNode :=
  l.foldl (fun acc n => insertByRt n acc) []

/-- Modelled from the spec: `Chromatogram.merge(other, node_type)` combines
two entity-consistent chromatograms; it fails with `DuplicateNodeError`
(`.error ()`) when both already hold an observation for the same scan id
with non-identical content (spec section 4.1).  Nodes taken from `other`
become typed nodes (`node_type`), duplicate identical observations are kept
once, and the node list stays in retention-time order (spec section 3). -/
def mergeChrom (c other : Chrom) (nodeType : String) : Except Unit Chrom :=
  if c.nodes.any (fun n1 => other.nodes.any (fun n2 =>
      decide (n1.scan = n2.scan) && decide (n1.members ≠ n2.members))) then
    .error ()
  else
    let newNodes := (other.nodes.filter fun n2 =>
      !(c.nodes.any fun n1 => decide (n1.scan = n2.scan))).map
        fun n => { n with kind := nodeType }
    .ok { c with nodes := sortByRt (c.nodes ++ newNodes), createdAt := "merge" }

/-- `ChromatogramMerger.merge_overlaps` (grouping.py lines 127-135).  For
each candidate the code tests `chroma.overlaps_in_time(chroma)` — the
candidate against **itself** — and uses the float
`abs((chroma.neutral_mass - new.neutral_mass)/new.neutral_mass)` directly as
a boolean (true iff nonzero).  A successful `merge` updates the stored
chromatogram (spec section 3 lists `merge` as a mutating operation) and
stops with `has_merged = True`; a `DuplicateNodeError` propagates. -/
def mergeOverlapsGo (newC : Chrom) (cs : List Chrom) :
    List ℤ → Except Unit (Bool × List Chrom)
  | [] => .ok (false, cs)
  | i :: rest =>
    let chroma := pyGetD cs i default
    if spanOverlap chroma chroma &&
        decide (|(chroma.neutralMass - newC.neutralMass) / newC.neutralMass| ≠ 0) then
      do
        let merged ← mergeChrom chroma newC "Unmodified"
        .ok (true, pySet cs i merged)
    else
      mergeOverlapsGo newC cs rest

/-- `ChromatogramMerger.handle_new_chromatogram` (grouping.py lines 137-152).
The `none` branch of the match is unreachable (a matched index list is never
empty). -/
def handleNewChromatogram (tol : ℚ) (cs : List Chrom) (newC : Chrom) :
    Except Unit (List Chrom) :=
  if cs.length = 0 then .ok (insertChromatogram cs newC [0])
  else
    let res := binarySearchWithFlag (cs.map Chrom.neutralMass) newC.neutralMass tol
    if res.2 then do
      let st ← mergeOverlapsGo newC cs res.1
      if st.1 then .ok st.2
      else
        match findMinimizingIndex cs newC.neutralMass res.1 with
        | some minIdx => .ok (insertChromatogram cs newC [minIdx])
        | none => .ok cs
    else .ok (insertChromatogram cs newC res.1)

/-- `ChromatogramMerger.aggregate_chromatograms` (grouping.py lines
168-171): stable-sort by descending `total_signal`, then feed each
chromatogram through `handle_new_chromatogram`. -/
def aggregateChromatograms (tol : ℚ) (cs0 : List Chrom)
    (chromatograms : List Chrom) : Except Unit (List Chrom) :=
  (stableSort (fun a b => decide (b.totalSignal ≤ a.totalSignal))
    chromatograms).foldlM
    (fun acc c => handleNewChromatogram tol acc c) cs0

/-! ## The retention-time interval tree and the overlap smoother
(grouping.py 174-224, 304-315) -/

/-- Modelled from the spec: one entry of the retention-time interval tree: a
`[start, end]` span and the chromatograms filed under it (spec section 4.3;
`ChromatogramRetentionTimeInterval` wraps exactly one chromatogram). -/
structure RTInterval where
  start : ℚ
  stop : ℚ
  members : List Chrom
deriving DecidableEq, Repr

/-- Modelled from the spec: the augmented interval tree produced by the
external `IntervalTreeNode.build` collaborator: each node holds a centre, its
depth (`level`), the intervals overlapping the centre, and subtrees of the
strictly-left and strictly-right intervals (spec section 4.3).  `leaf`
renders Python's `None` child. -/
inductive ITree where
  | leaf
  | node (center : ℚ) (level : ℕ) (contained : List RTInterval)
      (left right : ITree)
deriving DecidableEq, Repr

def ITree.size : ITree → ℕ
  | .leaf => 0
  | .node _ _ _ l r => 1 + l.size + r.size

/-- Modelled from the spec: recursive median construction of the interval
tree; `fuel` bounds the recursion (the input list shrinks strictly, so
`length + 1` always suffices). -/
def buildTreeF : ℕ → ℕ → List RTInterval → ITree
  | 0, _, _ => .leaf
  | _ + 1, _, [] => .leaf
  | fuel + 1, level, ivs =>
    let center := (((ivs.map RTInterval.start).min?).getD 0 +
      ((ivs.map RTInterval.stop).max?).getD 0) / 2
    let contained := ivs.filter fun iv => decide (iv.start ≤ center ∧ center ≤ iv.stop)
    let leftIvs := ivs.filter fun iv => decide (iv.stop < center)
    let rightIvs := ivs.filter fun iv => decide (center < iv.start)
    .node center level contained
      (buildTreeF fuel (level + 1) leftIvs)
      (buildTreeF fuel (level + 1) rightIvs)

/-- `build_rt_interval_tree` (grouping.py lines 360-363): wrap each
chromatogram in a single-member retention-time interval and build the tree. -/
def buildRtIntervalTree (chromatograms : List Chrom) : ITree :=
  let ivs := chromatograms.map fun c => RTInterval.mk c.startTime c.endTime [c]
  buildTreeF (ivs.length + 1) 0 ivs

/-- The stack loop of `flatten_tree` (grouping.py lines 174-188): pop a node,
record it, push its right then left child (skipping `None`); the recorded
list is finally reversed, which the cons-accumulator yields directly.
`fuel` (one more than the number of nodes) never runs out. -/
def flattenLoop : ℕ → List ITree → List ITree → List ITree
  | 0, _, out => out
  | _ + 1, [], out => out
  | fuel + 1, t :: rest, out =>
    match t with
    | .leaf => flattenLoop fuel rest out
    | .node _ _ _ l r =>
      let stack := (if l = .leaf then [] else [l]) ++
        (if r = .leaf then [] else [r]) ++ rest
      flattenLoop fuel stack (t :: out)

def flattenTree (t : ITree) : List ITree :=
  flattenLoop (t.size + 1) [t] []

/-- The `(level, center)` sort key of `layered_traversal`, as the Python
tuple order reversed (`reverse=True`, stable). -/
def layeredGE (a b : ITree) : Bool :=
  match a, b with
  | .node ca la _ _ _, .node cb lb _ _ _ =>
    decide (lb < la ∨ (lb = la ∧ cb ≤ ca))
  | .leaf, _ => false
  | _, .leaf => true

/-- `layered_traversal` (grouping.py lines 191-192). -/
def layeredTraversal (nodes : List ITree) : List ITree :=
  stableSort layeredGE nodes

/-- `ChromatogramOverlapSmoother.aggregate_interval` over the solution map
(`None` is keyed by `.leaf` and initialised to `[]`); the children of a node
are always already solved thanks to the layered traversal order, so the
default lookup value is never used. -/
def solutionLookup (m : List (ITree × List Chrom)) (t : ITree) : List Chrom :=
  ((m.find? fun e => decide (e.1 = t)).map Prod.snd).getD []

/-- `ChromatogramOverlapSmoother` (grouping.py lines 195-224): build the
interval tree, traverse it bottom-up, merge each node's chromatograms
together with its children's solutions, and return the root's solution. -/
def chromatogramOverlapSmoother (chromatograms : List Chrom)
    (tol : ℚ := 1/100000) : Except Unit (List Chrom) := do
  let root := buildRtIntervalTree chromatograms
  let nodes := layeredTraversal (flattenTree root)
  let solmap ← nodes.foldlM
    (fun (m : List (ITree × List Chrom)) t => do
      match t with
      | .leaf => .ok m
      | .node _ _ contained l r =>
        let chroms := (contained.map fun iv => iv.members.headD default) ++
          solutionLookup m l ++ solutionLookup m r
        let merged ← aggregateChromatograms tol [] chroms
        .ok ((t, merged) :: m))
    [(ITree.leaf, [])]
  .ok (solutionLookup solmap root)

/-- `is_sparse_and_disjoint` (grouping.py lines 304-315) as a boolean: `true`
iff no adjacent pair of entries is within `1e-5` relative mass error with an
unassigned first member and overlapping retention times. -/
def isSparseAndDisjoint (l : List Chrom) : Bool :=
  (List.range (l.length - 1)).all fun i =>
    let a := l.getD i default
    let b := l.getD (i + 1) default
    !(decide (|(a.neutralMass - b.neutralMass) / b.neutralMass| < 1/100000) &&
      decide (a.composition = none) && spanOverlap a b)

/-! ### Concrete chromatograms exercising the merger bugs -/

/-- An unassigned chromatogram at mass 1000 spanning retention times
[0, 10] with total signal 350. -/
def cexEqualA : Chrom :=
  ⟨none, "a", [⟨1, 0, [⟨1000, 200⟩], "Unmodified"⟩,
    ⟨2, 10, [⟨1000, 150⟩], "Unmodified"⟩], [], [], "t"⟩

/-- An unassigned chromatogram at the same mass 1000 spanning [5, 15] with
total signal 190: a true duplicate of `cexEqualA` in the overlap region. -/
def cexEqualB : Chrom :=
  ⟨none, "b", [⟨3, 5, [⟨1000, 100⟩], "Unmodified"⟩,
    ⟨4, 15, [⟨1000, 90⟩], "Unmodified"⟩], [], [], "t"⟩

/-- An unassigned chromatogram at mass 1000 spanning [0, 1]. -/
def cexDisjointA : Chrom :=
  ⟨none, "a", [⟨1, 0, [⟨1000, 200⟩], "Unmodified"⟩,
    ⟨2, 1, [⟨1000, 150⟩], "Unmodified"⟩], [], [], "t"⟩

/-- An unassigned chromatogram at mass 1000.005 (5 ppm from 1000, within the
1e-5 tolerance) spanning [5, 6], retention-time-disjoint from
`cexDisjointA`. -/
def cexDisjointB : Chrom :=
  ⟨none, "b", [⟨3, 5, [⟨1000 + 1/200, 100⟩], "Unmodified"⟩,
    ⟨4, 6, [⟨1000 + 1/200, 90⟩], "Unmodified"⟩], [], [], "t"⟩

/-! ## ChromatogramFilter (index.py) -/

/-- `arr[j]` for the index-module call sites whose indices are in range
(documented at each use). -/
def elemC (cs : List Chrom) (j : ℕ) : Chrom := cs.getD j default

/-- The sequential best-match scans inside `binary_search_with_flag`
(index.py lines 16-32): fold over the probe order, replacing the running
`(best_index, best_error)` state whenever the absolute relative error at the
probed index is strictly smaller. -/
def scanBest (cs : List Chrom) (mass : ℚ) (st : ℕ × ℚ) (idxs : List ℕ) :
    ℕ × ℚ :=
  idxs.foldl (fun st i =>
    let e := |relErr (elemC cs i).neutralMass mass|
    if e < st.2 then (i, e) else st) st

/-- `binary_search_with_flag` of index.py (lines 6-40), the single-index
variant: bisect until a probe is within tolerance, then scan `mid-1 .. 0`
followed by `mid+1 .. n-1` for the smallest absolute error — seeding
`best_error` with the *signed* error at `mid` exactly as the code does.
`mid = (hi + lo) / 2` is Python-2 integer floor division.  Fuel-based; the
interval strictly shrinks while `err ≠ 0`, so `length + 1` fuel is exact at
every call site (the only non-terminating source path, `err = 0` with a
negative tolerance, is never reached from the module). -/
def bsIdxLoop (cs : List Chrom) (mass tol : ℚ) : ℕ → ℕ → ℕ → ℕ × Bool
  | 0, _, _ => (0, false)
  | fuel + 1, lo, hi =>
    if hi ≠ lo then
      let mid := (hi + lo) / 2
      let err := relErr (elemC cs mid).neutralMass mass
      if |err| ≤ tol then
        let down := (List.range mid).reverse
        let up := (List.range (cs.length - (mid + 1))).map
          (fun (k : ℕ) => mid + 1 + k)
        ((scanBest cs mass (scanBest cs mass (mid, err) down) up).1, true)
      else if hi - lo = 1 then (mid, false)
      else if 0 < err then bsIdxLoop cs mass tol fuel lo mid
      else bsIdxLoop cs mass tol fuel mid hi
    else (0, false)

def binarySearchWithFlagIdx (cs : List Chrom) (mass tol : ℚ) : ℕ × Bool :=
  bsIdxLoop cs mass tol (cs.length + 1) 0 cs.length

/-- Python `xs[a:b]` for non-negative bounds (both bounds clamp to the list
length; the element at `b` is excluded). -/
def pySliceNat {α : Type} (xs : List α) (a b : ℕ) : List α :=
  (xs.take b).drop a

/-- `ChromatogramFilter.mass_between` (index.py lines 157-165).  Each bare
`self[...]` subscript is modelled with `List.get?`, so a Python `IndexError`
surfaces as `.error ()`: the code adds 2 to the high-side search index and
subscripts `self[high_index]` without a bounds check.  The tolerance passed
to both searches is the hard-coded `1e-5` of the source, and the final value
is the slice `self[low_index:high_index]`. -/
def massBetween (cs : List Chrom) (low high : ℚ) : Except Unit (List Chrom) :=
  let li0 := (binarySearchWithFlagIdx cs low (1/100000)).1
  match cs.get? li0 with
  | none => .error ()
  | some cl =>
    let li := if cl.neutralMass < low then li0 + 1 else li0
    let hi0 := (binarySearchWithFlagIdx cs high (1/100000)).1 + 2
    match cs.get? hi0 with
    | none => .error ()
    | some ch =>
      let hi := if high < ch.neutralMass then hi0 - 1 else hi0
      .ok (pySliceNat cs li hi)

/-- The failing input for `mass_between`: a filter holding one chromatogram
of neutral mass 1500 (one observation at retention time 1). -/
def cexMassBetween : List Chrom := [freshChrom 0 ⟨1500, 100⟩ 1]

/-! ## Binomial tandem-MS scorer (binomial_score.py)

Floats become exact rationals.  `np.exp(np.log a + np.log b + ...)` over
positive arguments is the exact product, and `np.log 0 = -inf` with
`np.exp -inf = 0`, so the probability `p` of `binomial_fragments_matched`
is `2 * tol * count / mass` for a positive match count and `0` when the
count is zero.  The `np.isnan` guard inside `binomial_tail_probability`
never fires over exact arithmetic. -/

/-- `binomial_tail_probability(n, k, p)` (binomial_score.py lines 22-30):
the sum over the half-open range `[k, n)` — note the upper limit excludes
`i = n`, so `k = n` yields the empty sum `0`. -/
def binomialTailProbability (n k : ℕ) (p : ℚ) : ℚ :=
  ((List.range (n - k)).map (fun (i : ℕ) =>
    (n.choose (k + i) : ℚ) * p ^ (k + i) * (1 - p) ^ (n - (k + i)))).sum

/-- `binomial_fragments_matched` (lines 33-37), with the `exp`/`log`
identity applied (see the section comment). -/
def binomialFragmentsMatched (total count : ℕ) (tol mass : ℚ) : ℚ :=
  binomialTailProbability total count
    (if count = 0 then 0 else 2 * tol * (count : ℚ) / mass)

/-- `median_sorted` (lines 40-45).  `(n - 1) / 2` is Python-2 floor integer
division (`-1 / 2 = -1`), and the subscripts follow Python semantics
(negative indices wrap); an unsatisfiable subscript is `none`
(`IndexError`). -/
def medianSorted (xs : List ℚ) : Option (ℤ × ℚ) :=
  let n : ℤ := xs.length
  let h : ℤ := (n - 1).fdiv 2
  if n % 2 = 0 then
    match pyGet? xs h, pyGet? xs (h + 1) with
    | some a, some b => some (h, (a + b) / 2)
    | _, _ => none
  else
    (pyGet? xs h).map fun a => (h, a)

/-- Python `xs[o:]` (tail slice; a negative start counts from the end,
clamping at 0). -/
def pySliceFrom {α : Type} (xs : List α) (o : ℤ) : List α :=
  if 0 ≤ o then xs.drop o.toNat
  else xs.drop (max 0 ((xs.length : ℤ) + o)).toNat

/-- `medians` (lines 48-57): sort ascending, then take four successive
medians of ever-shorter tail slices, accumulating the offsets exactly as the
source does. -/
def medians (xs0 : List ℚ) : Option (ℚ × ℚ × ℚ × ℚ) := do
  let xs := stableSort (fun a b => decide (a ≤ b)) xs0
  let (o1, m1) ← medianSorted xs
  let off1 := o1 + 1
  let (i2, m2) ← medianSorted (pySliceFrom xs off1)
  let off2 := off1 + i2 + 1
  let (i3, m3) ← medianSorted (pySliceFrom xs off2)
  let off3 := off2 + i3 + 1
  let (_, m4) ← medianSorted (pySliceFrom xs off3)
  pure (m1, m2, m3, m4)

/-- `(matched_intensities > m).sum()` — how many matched intensities lie
strictly above the threshold. -/
def countAbove (xs : List ℚ) (m : ℚ) : ℕ :=
  (xs.filter (fun x => decide (m < x))).length

/-- The `prod = 0; for v in counts.values(): if v == 0: continue;
prod += np.log(v)` / `np.exp(prod)` loop (lines 85-90): the product of the
nonzero factors (`1` when all four are zero). -/
def prodNonzero (l : List ℚ) : ℚ :=
  (l.filter (fun v => decide (v ≠ 0))).prod

/-- `binomial_intensity(peak_list, matched_peaks, total_product_ion_count)`
(lines 60-90).  The iteration order of the peak set and of the match dict is
irrelevant: only the sorted intensity list and strict-above counts are used,
so both collections are taken as intensity lists.  `np.exp(0) = 1` for the
empty-match early return.  A `medians` subscript failure (`IndexError`)
surfaces as `none`. -/
def binomialIntensity (peakIntensities matchedIntensities : List ℚ)
    (totalCount : ℕ) : Option ℚ :=
  if matchedIntensities.length = 0 then some 1
  else do
    let (m1, m2, m3, m4) ← medians peakIntensities
    let c1 := countAbove matchedIntensities m1
    let v1 := binomialTailProbability totalCount c1 (1/2)
    let c2 := countAbove matchedIntensities m2
    let v2 := binomialTailProbability c1 c2 (1/2)
    let c3 := countAbove matchedIntensities m3
    let v3 := binomialTailProbability c2 c3 (1/2)
    let c4 := countAbove matchedIntensities m4
    let v4 := binomialTailProbability c3 c4 (1/2)
    pure (prodNonzero [v1, v2, v3, v4])

/-- The two log arguments of `_binomial_score` (lines 180-198): the
intensity component floored at `1e-170` when it is exactly zero, paired with
the fragment-matched component, which the code does **not** floor.  The
returned float score is `-log10` of the first minus `log10` of the second,
so it is finite precisely when both components are positive. -/
def binomialScoreComponents (nTheo matched : ℕ) (tol mass : ℚ)
    (peakIntensities matchedIntensities : List ℚ) : Option (ℚ × ℚ) := do
  let ic0 ← binomialIntensity peakIntensities matchedIntensities nTheo
  let ic := if ic0 = 0 then 1 / 10 ^ 170 else ic0
  pure (ic, binomialFragmentsMatched nTheo matched tol mass)

/-- The C9 spectrum: eight sanitized peak intensities (so all four `medians`
slices are non-empty) and a single matched intensity above every median. -/
def cexC9Peaks : List ℚ := [1, 2, 3, 4, 5, 6, 7, 8]

def cexC9Matched : List ℚ := [10]

/-! ## CompositionGraph text serialization (composition_network.py)

`GraphWriter` (lines 505-533) and `GraphReader` (lines 536-583) exchange a
tab-separated text file.  The embedding works over a structured line stream:
a line is a header tag, a node record `"%d\t%s\t%f"`, or an edge record
`"%d\t%d\t%d\t%f"`.  `%d` round-trips an integer exactly; `%f` renders
exactly six fractional digits, so the rational carried by a written line is
the source value rounded to the nearest multiple of `1e-6` (ties upward;
`float(...)` on the reader side recovers exactly that rounded value in this
rational model of floats).  Compositions are abstract strings
(`serialize`/`parse` are inverse on well-formed compositions and are not in
src/). -/

/-- A `CompositionGraphNode` as the serializer sees it: `composition`
(string form), `index`, and the `score` written by `handle_node` (the
`score` property: `_score`, or the class default `0.0`). -/
structure CGNode where
  composition : String
  index : ℤ
  score : ℚ
deriving DecidableEq, Repr

instance : Inhabited CGNode := ⟨⟨"", 0, 0⟩⟩

/-- A `CompositionGraphEdge`: endpoint node indices, `order` and `weight`.
The constructor (line 263) coerces a non-positive `order` to 1. -/
structure CGEdge where
  node1 : ℤ
  node2 : ℤ
  order : ℤ
  weight : ℚ
deriving DecidableEq, Repr

/-- A `CompositionGraph` as the serializer sees it: the node list and the
`EdgeSet` store — a dict keyed by the endpoint node pair, where node
equality and hash are the composition string (lines 191-201), so the key is
the pair of endpoint composition strings. -/
structure CGraph where
  nodes : List CGNode
  edges : List ((String × String) × CGEdge)
deriving DecidableEq, Repr

/-- One line of the graph file. -/
inductive GLine where
  | header (tag : String)
  | nodeLine (index : ℤ) (composition : String) (score : ℚ)
  | edgeLine (index1 index2 order : ℤ) (weight : ℚ)
deriving DecidableEq, Repr

/-- The value denoted by `"%f" % q`: `q` rounded to six fractional digits
(ties toward positive infinity; no call site in the development produces an
exact tie). -/
def round6 (q : ℚ) : ℚ := (⌊q * 10 ^ 6 + 1 / 2⌋ : ℚ) / 10 ^ 6

/-- `GraphWriter.handle_graph` (lines 526-533): the version header, the
`#NODE` section with one line per node in list order, then the `#EDGE`
section with one line per stored edge. -/
def graphWriter (g : CGraph) : List GLine :=
  GLine.header "#COMPOSITIONGRAPH 1.0" :: GLine.header "#NODE" ::
    (g.nodes.map (fun n => GLine.nodeLine n.index n.composition
      (round6 n.score)) ++
      (GLine.header "#EDGE" ::
        g.edges.map (fun kv => GLine.edgeLine kv.2.node1 kv.2.node2
          kv.2.order (round6 kv.2.weight))))

/-- Python `store[k] = v` on a dict modelled as an association list:
overwrite the entry at an existing key, otherwise append. -/
def dictSet {κ α : Type} [DecidableEq κ] (store : List (κ × α)) (k : κ)
    (v : α) : List (κ × α) :=
  if store.any (fun kv => decide (kv.1 = k)) then
    store.map (fun kv => if kv.1 = k then (k, v) else kv)
  else store ++ [(k, v)]

/-- The `handle_graph_file` state machine (lines 570-583). -/
inductive RState where
  | start
  | node
  | edge
deriving DecidableEq, Repr

/-- One step of `GraphReader.handle_graph_file`.  In `START` every line
other than `#NODE` is skipped.  In `NODE` state a header other than `#EDGE`
or an edge-shaped line reaches `handle_node_line`, whose tab-split raises
`ValueError` (`\x2e error ()`); a node line appends
`CompositionGraphNode(composition, index, score)` positionally.  In `EDGE`
state every line reaches `handle_edge_line`: non-edge shapes fail the
4-field unpack, and an edge line looks the endpoints up *positionally*
(`self.network.nodes[index]`, Python indexing, so a negative index wraps and
an out-of-range one is an `IndexError`) and stores the rebuilt edge under
the endpoint-composition key. -/
def graphReaderStep (st : RState × CGraph) (l : GLine) :
    Except Unit (RState × CGraph) :=
  match st, l with
  | (.start, g), .header t =>
    .ok (if t = "#NODE" then .node else .start, g)
  | (.start, g), _ => .ok (.start, g)
  | (.node, g), .header t =>
    if t = "#EDGE" then .ok (.edge, g) else .error ()
  | (.node, g), .nodeLine i c s =>
    .ok (.node, { g with nodes := g.nodes ++ [⟨c, i, s⟩] })
  | (.node, _), .edgeLine _ _ _ _ => .error ()
  | (.edge, g), .edgeLine i1 i2 d w =>
    match pyGet? g.nodes i1, pyGet? g.nodes i2 with
    | some n1, some n2 =>
      .ok (.edge, { g with edges :=
        (dictSet g.edges (n1.composition, n2.composition)
          ⟨n1.index, n2.index, if 0 < d then d else 1, w⟩) })
    | _, _ => .error ()
  | (.edge, _), _ => .error ()

/-- `GraphReader.read`: run the state machine from `START` over an empty
`CompositionGraph([])` and return the accumulated network. -/
def graphReader (ls : List GLine) : Except Unit CGraph :=
  (ls.foldlM graphReaderStep (RState.start, (⟨[], []⟩ : CGraph))).map
    Prod.snd

/-- What write-then-read can at best reproduce: the same graph with every
node score and edge weight rounded to the six decimal digits that `%f`
preserves. -/
def roundCGNode (n : CGNode) : CGNode := { n with score := round6 n.score }

def roundGraph (g : CGraph) : CGraph :=
  ⟨g.nodes.map roundCGNode,
    g.edges.map (fun kv => (kv.1, { kv.2 with
      weight := round6 kv.2.weight }))⟩

/-- The C5 counterexample graph: a single node whose score `1e-7` is below
the `%f` resolution. -/
def cexC5Graph : CGraph := ⟨[⟨"Hex1", 0, 1/10^7⟩], []⟩

/-- The C5 witness graph: two nodes and one edge, every score and weight a
multiple of `1e-6`. -/
def wC5Graph : CGraph :=
  ⟨[⟨"A", 0, 1/2⟩, ⟨"B", 1, 3⟩], [(("A", "B"), ⟨0, 1, 1, 7/4⟩)]⟩

/-! ## CompositionGraph.remove_node and DijkstraPathFinder
(composition_network.py lines 49-109 and 387-430)

Node identity is the composition string (`__eq__`/`__hash__` compare
`_str`), and a node's `index` is its position in the node list (the
invariant `create_nodes`/`_reindex` maintain, restored by `_reindex`
immediately after every removal), so the embedding keeps nodes as a list of
composition strings and derives indices by position.  An edge records its
endpoints with the lower-index endpoint first (`create_edges` and the
bridging code both order endpoints by index before constructing).  A node
object's personal `EdgeSet` mirrors the graph-level set restricted to edges
incident to it (both are maintained in lockstep by the constructor and
`remove_edge`), so the embedding derives it by filtering the graph's edge
list; iteration over the `EdgeSet` dict and over the `unvisited` set, whose
order CPython 2 leaves unspecified, is modelled in insertion order.
Distances are `WithTop ℤ` (`float('inf')` is `⊤`). -/

/-- A `CompositionGraphEdge` for the removal model: lower-index endpoint
composition, higher-index endpoint composition, `order`, `weight`. -/
structure NEdge where
  a : String
  b : String
  order : ℤ
  weight : ℚ
deriving DecidableEq, Repr

/-- Edge equality as Python computes it: `__eq__` compares `_str`, which is
built from the endpoints and the order — the weight does not participate. -/
def edgeEq (e1 e2 : NEdge) : Bool :=
  decide (e1.a = e2.a ∧ e1.b = e2.b ∧ e1.order = e2.order)

/-- A `CompositionGraph` for the removal model. -/
structure NGraph where
  nodes : List String
  edges : List NEdge
deriving DecidableEq, Repr

/-- `node.edges`: the edges incident to a composition. -/
def incidentEdges (g : NGraph) (comp : String) : List NEdge :=
  g.edges.filter (fun e => decide (e.a = comp ∨ e.b = comp))

/-- `edge._traverse(node)`: the other endpoint. -/
def traverseEdge (e : NEdge) (comp : String) : String :=
  if comp = e.b then e.a else e.b

/-- `node1.edge_to(node2)` (lines 221-224): order the two nodes by index,
then look the pair up in the store; `none` is the `KeyError` case. -/
def edgeTo (g : NGraph) (u v : String) : Option NEdge :=
  let p := if g.nodes.indexOf v < g.nodes.indexOf u then (v, u) else (u, v)
  g.edges.find? (fun e => decide (e.a = p.1 ∧ e.b = p.2))

/-- `EdgeSet.add_if_shorter` (lines 229-239): keep a strictly shorter
existing edge at the same key, otherwise overwrite; a missing key inserts. -/
def addIfShorter (es : List NEdge) (e : NEdge) : List NEdge :=
  match es.find? (fun e0 => decide (e0.a = e.a ∧ e0.b = e.b)) with
  | some prev =>
    if prev.order < e.order then es
    else es.map (fun e0 => if e0.a = e.a ∧ e0.b = e.b then e else e0)
  | none => es ++ [e]

/-- `defaultdict(lambda: float('inf'))` lookup. -/
def distGet (d : List (String × WithTop ℤ)) (k : String) : WithTop ℤ :=
  ((d.find? (fun kv => decide (kv.1 = k))).map Prod.snd).getD ⊤

/-- `find_smallest_unvisited` (lines 60-73): scan
`unvisited_finite_distance` if non-empty, else all unvisited nodes with
their distances, keeping the last node whose distance is `≤` the running
smallest (initially `inf`). -/
def findSmallestUnvisited (d ufd : List (String × WithTop ℤ))
    (unvisited : List String) : String :=
  let iterable := if ufd.isEmpty then
    unvisited.map (fun k => (k, distGet d k)) else ufd
  (iterable.foldl (fun acc kv => if kv.2 ≤ acc.2 then kv else acc)
    ("", ⊤)).1

/-- The body of the edge loop in `find_path` (lines 92-105): relax each
edge incident to `current`; a terminal still unvisited whose recorded
distance exceeds the new path length is updated, entering
`unvisited_finite_distance` only when its *old* distance was below the
limit; likewise the *old* distance gates the queue append. -/
def dijkstraRelax (limit : WithTop ℤ) (current : String)
    (unvisited : List String)
    (st : List (String × WithTop ℤ) × List (String × WithTop ℤ) ×
      List String) (e : NEdge) :
    List (String × WithTop ℤ) × List (String × WithTop ℤ) × List String :=
  let (d, u, q) := st
  let terminal := traverseEdge e current
  if terminal ∈ unvisited then
    let pl := distGet d current + (e.order : WithTop ℤ)
    let td := distGet d terminal
    let d' := if td > pl then dictSet d terminal pl else d
    let u' := if td > pl ∧ td < limit then dictSet u terminal pl else u
    let q' := if td < limit then q ++ [terminal] else q
    (d', u', q')
  else st

/-- `find_path` (lines 75-105), fuel-based.  Each pass pops the visit queue
(falling back to `find_smallest_unvisited` when it is empty — the
`IndexError` handler), skips already-visited entries (the `KeyError`
handler), and otherwise marks the node visited and relaxes its incident
edges.  The fuel chosen by `dijkstraSearch` covers every reachable
iteration count, the loop ending as soon as `end` has been visited. -/
def dijkstraLoop (g : NGraph) (limit : WithTop ℤ) (endNode : String) :
    ℕ → List String → List (String × WithTop ℤ) →
    List (String × WithTop ℤ) → List String → List (String × WithTop ℤ)
  | 0, _, d, _, _ => d
  | fuel + 1, unvisited, d, ufd, queue =>
    if endNode ∈ unvisited then
      let cq : String × List String :=
        match queue with
        | c :: rest => (c, rest)
        | [] => (findSmallestUnvisited d ufd unvisited, [])
      if cq.1 ∈ unvisited then
        let unvisited' := unvisited.erase cq.1
        let ufd' := ufd.filter (fun kv => decide (¬ kv.1 = cq.1))
        let st := (incidentEdges g cq.1).foldl
          (dijkstraRelax limit cq.1 unvisited') (d, ufd', cq.2)
        dijkstraLoop g limit endNode fuel unvisited' st.1 st.2.1 st.2.2
      else
        dijkstraLoop g limit endNode fuel unvisited d ufd cq.2
    else d

/-- `DijkstraPathFinder(graph, start, end, limit).search()` (lines 51-109):
run `find_path` from `distance = {start: 0}`, unvisited = all nodes, queue
= `[start]`, and read off the end node's distance. -/
def dijkstraSearch (g : NGraph) (start endNode : String) (limit : WithTop ℤ) :
    WithTop ℤ :=
  distGet (dijkstraLoop g limit endNode
    ((g.nodes.length + 1) * (g.edges.length + 2) + 1)
    g.nodes [(start, (0 : WithTop ℤ))] [] [start]) endNode

/-- The non-bridging part of `remove_node` (lines 388-394): subtract every
edge incident to the node, drop the node, reindex (implicit: indices are
positions). -/
def removeNodeBase (g : NGraph) (comp : String) : NGraph :=
  ⟨g.nodes.erase comp,
    g.edges.filter (fun e => decide (¬ (e.a = comp ∨ e.b = comp)))⟩

/-- One candidate bridging step: the body of the nested pair loop of
`remove_node` (lines 398-429), acting on the `seen` key set and the working
graph.  Pairs equal as edges are skipped; a `frozenset` key is the
unordered index pair; a pair whose summed removed orders reaches the limit,
or that is already joined by *any* edge (`if node1.edge_to(node2):
continue` — regardless of that edge's order), is skipped; otherwise the new
order is the minimum of the summed orders and the Dijkstra distance bounded
by `min(old_distance + 1, limit)`, and the edge (endpoints ordered by
index, weight 1, order coerced positive by the constructor) is added via
`add_if_shorter`. -/
def bridgeStep (comp : String) (limit : ℤ)
    (st : List (ℕ × ℕ) × NGraph) (e1 e2 : NEdge) :
    List (ℕ × ℕ) × NGraph :=
  if edgeEq e1 e2 then st
  else
    let h := st.2
    let n1 := traverseEdge e1 comp
    let n2 := traverseEdge e2 comp
    let i1 := h.nodes.indexOf n1
    let i2 := h.nodes.indexOf n2
    let key := (min i1 i2, max i1 i2)
    if key ∈ st.1 then st
    else
      let seen' := key :: st.1
      let old := e1.order + e2.order
      if limit ≤ old then (seen', h)
      else
        match edgeTo h n1 n2 with
        | some _ => (seen', h)
        | none =>
          let shortest := dijkstraSearch h n1 n2
            ((min (old + 1) limit : ℤ) : WithTop ℤ)
          let pathLen := min ((old : ℤ) : WithTop ℤ) shortest
          if pathLen < ((limit : ℤ) : WithTop ℤ) then
            let pl := pathLen.untop' 0
            let p := if i2 < i1 then (n2, n1) else (n1, n2)
            (seen', ⟨h.nodes, addIfShorter h.edges
              ⟨p.1, p.2, if 0 < pl then pl else 1, 1⟩⟩)
          else (seen', h)

/-- `remove_node(node, bridge=True, limit)` (lines 387-430). -/
def removeNode (g : NGraph) (comp : String) (limit : ℤ) : NGraph :=
  let sub := incidentEdges g comp
  (sub.foldl (fun st e1 => sub.foldl (fun st e2 => bridgeStep comp limit
    st e1 e2) st) (([], removeNodeBase g comp) :
      List (ℕ × ℕ) × NGraph)).2

/-- The C6 counterexample graph: a triangle `u - n - v` with removed-edge
orders 1 and 1 and a direct `u - v` edge of order 10. -/
def cexC6Graph : NGraph :=
  ⟨["u", "n", "v"],
    [⟨"u", "n", 1, 1⟩, ⟨"n", "v", 1, 1⟩, ⟨"u", "v", 10, 1⟩]⟩

/-- The C6 witness graph: a path `u - n - v` with orders 1 and 1 and no
direct `u - v` edge. -/
def wC6Graph : NGraph :=
  ⟨["u", "n", "v"], [⟨"u", "n", 1, 1⟩, ⟨"n", "v", 1, 1⟩]⟩

/-! ## join_mass_shifted (trace.py lines 228-247) -/

/-- Modelled from the spec: an adduct carries an identity (its name, used
as merge node type and in `used_as_adduct` records) and a mass offset. -/
structure Adduct where
  name : String
  mass : ℚ
deriving DecidableEq, Repr

/-- `ChromatogramFilter.find_mass` (index.py lines 82-87), returning the
found *position* so that the caller's in-place mutation of the shared
element can be modelled: `None` when the flag is false. -/
def findMassIdx (cs : List Chrom) (mass tol : ℚ) : Option ℕ :=
  let r := binarySearchWithFlagIdx cs mass tol
  if r.2 then some r.1 else none

/-- The payload of a propagated `DuplicateNodeError` (trace.py lines
240-245): `e.original`, `e.to_add`, `e.accumulated`, `e.adduct`. -/
structure JoinError where
  original : Chrom
  toAdd : Chrom
  accumulated : Chrom
  adduct : String
deriving DecidableEq, Repr

/-- The body of the adduct loop of `join_mass_shifted` (trace.py lines
232-245), acting on the shared chromatogram list and the accumulating
chromatogram `add`.  `find_mass` searches `chroma.neutral_mass +
adduct.mass`; `if match` is Python truthiness — a chromatogram with no
nodes is falsy; the `(add.key, adduct)` record is appended to the *shared*
match **before** `merge` runs, so it persists even when `merge` raises; a
`DuplicateNodeError` is re-raised with the original, the attempted
addition, the accumulated chromatogram and the implicated adduct attached.
(The accumulating chromatogram is handled by value; the aliasing that a
zero-mass adduct would introduce — `match` being the same object as the
still-unmerged `add` — is outside the modelled inputs, every adduct in the
program having nonzero mass.) -/
def joinAdductStep (tol : ℚ) (chroma : Chrom) (st : List Chrom × Chrom)
    (adduct : Adduct) : Except JoinError (List Chrom × Chrom) :=
  match findMassIdx st.1 (chroma.neutralMass + adduct.mass) tol with
  | none => .ok st
  | some j =>
    let mtch := st.1.getD j default
    if mtch.nodes ≠ [] ∧ spanOverlap st.2 mtch = true then
      let mtch' := { mtch with usedAsAdduct :=
        mtch.usedAsAdduct ++ [(st.2.key, adduct.name)] }
      match mergeChrom st.2 mtch' adduct.name with
      | .error () => .error ⟨chroma, mtch', st.2, adduct.name⟩
      | .ok merged =>
        .ok (st.1.set j mtch', { merged with
          createdAt := "join_mass_shifted",
          adducts := merged.adducts ++ [adduct.name] })
    else .ok st

/-- One outer-loop pass of `join_mass_shifted`: fold the adduct loop from
`add = chroma`, returning the updated shared list and the accumulated
chromatogram appended to `out`. -/
def joinOne (tol : ℚ) (adducts : List Adduct) (m : List Chrom) (i : ℕ) :
    Except JoinError (List Chrom × Chrom) :=
  adducts.foldlM (joinAdductStep tol (m.getD i default))
    (m, m.getD i default)

/-- The `ChromatogramFilter` constructor (index.py lines 44-47): drop
zero-length chromatograms and stable-sort by `(neutral_mass,
start_time)`. -/
def chromFilterSort (cs : List Chrom) : List Chrom :=
  stableSort (fun a b => decide (a.neutralMass < b.neutralMass ∨
    (a.neutralMass = b.neutralMass ∧ a.startTime ≤ b.startTime)))
    (cs.filter (fun c => decide (c.nodes ≠ [])))

/-- `join_mass_shifted(chromatograms, adducts, mass_error_tolerance)`
(trace.py lines 228-247): process each chromatogram of the shared filter in
order, collect the accumulated results, and wrap them in a fresh
`ChromatogramFilter`. -/
def joinMassShifted (cs0 : List Chrom) (adducts : List Adduct) (tol : ℚ) :
    Except JoinError (List Chrom) := do
  let st ← (List.range cs0.length).foldlM
    (fun (st : List Chrom × List Chrom) i => do
      let r ← joinOne tol adducts st.1 i
      pure (r.1, st.2 ++ [r.2])) (cs0, ([] : List Chrom))
  pure (chromFilterSort st.2)

/-- The base chromatogram of the sodium-adduct scenario: mass 1000.0 over
retention times [5, 15], key `c1`. -/
def sodiumBase : Chrom :=
  ⟨none, "c1", [⟨0, 5, [⟨1000, 100⟩], "Unmodified"⟩,
    ⟨1, 15, [⟨1000, 110⟩], "Unmodified"⟩], [], [], "forest"⟩

/-- The sodium-adducted chromatogram: mass 1022.9892 over [6, 14],
key `c2`. -/
def sodiumAdducted : Chrom :=
  ⟨none, "c2", [⟨2, 6, [⟨10229892/10000, 50⟩], "Unmodified"⟩,
    ⟨3, 14, [⟨10229892/10000, 60⟩], "Unmodified"⟩], [], [], "forest"⟩

/-- Sodium exchange: mass offset 22.9892. -/
def sodiumAdduct : Adduct := ⟨"Na", 229892/10000⟩

/-! ## prune_bad_adduct_branches (trace.py lines 296-322) and
mask_subsequence (grouping.py lines 227-237)

A scored solution wraps a chromatogram with its fitted score
(`case.score`, `case.chromatogram`).  `_build_key_map` groups solutions by
key into `DisjointChromatogramSet`s (index.py lines 178-195); replacing an
entry stores the masked chromatogram with `new_masked.score =
owner_item.score`.  `unspool`/`unspool_strip_children` flatten the node
forest so that a node folded in by `merge` re-appears as the identical
node value (spec section 4.4); the flat embedding therefore compares node
values directly. -/

structure Sol where
  chromatogram : Chrom
  score : ℚ
deriving DecidableEq, Repr

/-- `mask_subsequence(target, masker)` (grouping.py lines 227-237): keep
exactly the target nodes that do not appear among the masker's nodes, on a
fresh chromatogram carrying the target's identity with
`created_at = "mask_subsequence"`. -/
def maskSubsequence (target masker : Chrom) : Chrom :=
  ⟨target.composition, target.key,
    target.nodes.filter (fun n => decide (n ∉ masker.nodes)),
    [], [], "mask_subsequence"⟩

/-- `DisjointChromatogramSet.linear_search` (index.py lines 182-186): the
first group member whose span contains the query's center time. -/
def linearSearch (group : List Sol) (start endT : ℚ) : Option Sol :=
  let center := (start + endT) / 2
  group.find? (fun s => decide (s.chromatogram.startTime ≤ center ∧
    center ≤ s.chromatogram.endTime))

/-- `DisjointChromatogramSet.replace` (index.py lines 193-195): overwrite
the first occurrence of `orig` (Python `list.index`). -/
def replaceSol (group : List Sol) (orig repl : Sol) : List Sol :=
  match group.findIdx? (fun s => decide (s = orig)) with
  | some i => group.set i repl
  | none => group

def lookupKM (km : List (String × List Sol)) (k : String) :
    Option (List Sol) :=
  (km.find? (fun kv => decide (kv.1 = k))).map Prod.snd

/-- Python `set.add`. -/
def insertSet (s : List String) (x : String) : List String :=
  if x ∈ s then s else s ++ [x]

/-- The body of the `for owning_key, adduct in case.used_as_adduct` loop of
`prune_bad_adduct_branches` (trace.py lines 303-318), over the state
(key map, `updated` set, `keepers`).  A missing owner key or no
time-overlapping owner item leaves the state unchanged; a contributor
scoring strictly higher than the owner item masks the contributor's nodes
out of the owner, replaces the owner's entry when the mask left any nodes
(keeping the owner item's score), and marks the key updated — the
`(owning_key, adduct)` pair is *not* kept, so the contributor sheds the
adduct attribution and keeps its separate identity; otherwise the pair
goes to `keepers`, re-recorded on the contributor. -/
def pruneStep (caseS : Sol)
    (st : List (String × List Sol) × List String × List (String × String))
    (pair : String × String) :
    List (String × List Sol) × List String × List (String × String) :=
  match lookupKM st.1 pair.1 with
  | none => st
  | some group =>
    match linearSearch group caseS.chromatogram.startTime
        caseS.chromatogram.endTime with
    | none => st
    | some ownerItem =>
      if ownerItem.score < caseS.score then
        let newMasked := maskSubsequence ownerItem.chromatogram
          caseS.chromatogram
        let km' := if newMasked.nodes.length ≠ 0
          then dictSet st.1 pair.1
            (replaceSol group ownerItem ⟨newMasked, ownerItem.score⟩)
          else st.1
        (km', insertSet st.2.1 pair.1, st.2.2)
      else (st.1, st.2.1, st.2.2 ++ [pair])

/-- One `case` pass of `prune_bad_adduct_branches` (lines 300-319): run the
pair loop from fresh `keepers` and write the surviving pairs back to the
case's chromatogram (value semantics; the Python write-back also reaches
the shared solution object inside the key map). -/
def pruneCase (km : List (String × List Sol)) (updated : List String)
    (caseS : Sol) :
    List (String × List Sol) × List String × Sol :=
  if caseS.chromatogram.usedAsAdduct ≠ [] then
    let st := caseS.chromatogram.usedAsAdduct.foldl (pruneStep caseS)
      (km, updated, [])
    (st.1, st.2.1,
      ⟨{ caseS.chromatogram with usedAsAdduct := st.2.2 }, caseS.score⟩)
  else (km, updated, caseS)

/-- The C8 scenario: the owner chromatogram (key `a`, score 0.3) holds the
shared node `n1` folded in from the contributor plus its own node `n0`. -/
def cexC8Owner : Chrom :=
  ⟨none, "a", [⟨0, 0, [⟨1000, 100⟩], "Unmodified"⟩,
    ⟨1, 5, [⟨1022, 50⟩], "Unmodified"⟩], [], [], "forest"⟩

/-- The contributor (key `b`, score 0.9), recorded as an adduct of owner
`a`, holding exactly the shared node `n1`. -/
def cexC8Contrib : Chrom :=
  ⟨none, "b", [⟨1, 5, [⟨1022, 50⟩], "Unmodified"⟩], [("a", "Na")], [],
    "forest"⟩

/-- The `frozenset((node1.index, node2.index))` seen-key of one bridging
candidate (line 404), as the ordered index pair. -/
def keyOf (h : NGraph) (tA tB : String) : ℕ × ℕ :=
  (min (h.nodes.indexOf tA) (h.nodes.indexOf tB),
    max (h.nodes.indexOf tA) (h.nodes.indexOf tB))

/-- The edge one firing of the bridging branch constructs (lines 416-428),
given the working graph `h`, the two neighbors and the summed removed
orders `old`. -/
def bridgeEdgeOf (limit : ℤ) (h : NGraph) (tA tB : String) (old : ℤ) :
    NEdge :=
  let shortest := dijkstraSearch h tA tB
    ((min (old + 1) limit : ℤ) : WithTop ℤ)
  let pl := (min ((old : ℤ) : WithTop ℤ) shortest).untop' 0
  let p := if h.nodes.indexOf tB < h.nodes.indexOf tA then (tB, tA)
    else (tA, tB)
  ⟨p.1, p.2, if 0 < pl then pl else 1, 1⟩

/-! ## Specification predicates for the bridging loop of `remove_node`

These describe the edge that one firing of the bridging branch constructs,
and the invariant the pair loop maintains for one fixed pair of former
neighbors `u`, `v` with removed-order sum `sum` and key `K`. -/

/-- The order of a bridging edge as `remove_node` computes it (lines
416-428): the Dijkstra distance between the endpoints on the working graph
`hmid`, bounded by `min(sum + 1, limit)`, capped by `sum`, and coerced
positive by the edge constructor. -/
def bridgedOrder (sum limit : ℤ) (hmid : NGraph) (s t : String) : ℤ :=
  let pl := (min ((sum : ℤ) : WithTop ℤ)
    (dijkstraSearch hmid s t (((min (sum + 1) limit) : ℤ) :
      WithTop ℤ))).untop' 0
  if 0 < pl then pl else 1

/-- `ed` is a bridging edge for the neighbor pair `{u, v}`: weight 1 and
order computed by `bridgedOrder` from some working graph over the
post-removal node list, with the Dijkstra run in one of the two endpoint
orders. -/
def bridgedEdgeSpec (base : NGraph) (sum limit : ℤ) (u v : String)
    (ed : NEdge) : Prop :=
  ∃ hmid s t, ((s = u ∧ t = v) ∨ (s = v ∧ t = u)) ∧
    hmid.nodes = base.nodes ∧ ed.weight = 1 ∧
    ed.order = bridgedOrder sum limit hmid s t

/-- The pair-loop invariant for the fixed neighbor pair `{u, v}` with seen
key `K`: the node list never changes, and either the pair's key is unseen
and no edge joins `u` and `v` yet, or the key has been seen and a bridging
edge joins them. -/
def bridgeInv (base : NGraph) (sum limit : ℤ) (u v : String) (K : ℕ × ℕ)
    (st : List (ℕ × ℕ) × NGraph) : Prop :=
  st.2.nodes = base.nodes ∧
  ((K ∉ st.1 ∧ edgeTo st.2 u v = none) ∨
   (K ∈ st.1 ∧ ∃ ed, edgeTo st.2 u v = some ed ∧
     bridgedEdgeSpec base sum limit u v ed))

/-! ## END-OF-DEFINITIONS (theorems below) -/

/-! ### Basic facts about the Python-index helpers -/

theorem pyIdx?_nonneg {n : ℕ} {i : ℤ} (h0 : 0 ≤ i) (h : i < n) :
    pyIdx? n i = some i.toNat := by
  simp [pyIdx?, h0, h]

theorem pyGet?_nonneg {α : Type} {xs : List α} {i : ℤ} (h0 : 0 ≤ i) :
    pyGet? xs i = xs.get? i.toNat := by
  unfold pyGet? pyIdx?
  by_cases h : i < (xs.length : ℤ)
  · simp [h0, h]
  · have hlen : xs.length ≤ i.toNat := by omega
    simp only [h0, if_true, h, if_false, Option.bind]
    rw [List.get?_eq_none.2 hlen]

theorem elemAt_get? {arr : List ℚ} {j : ℕ} (h : j < arr.length) :
    arr.get? j = some (elemAt arr j) := by
  simp [elemAt, List.getD_eq_getElem?_getD, List.getElem?_eq_getElem h,
    List.get?_eq_getElem?]

/-! ### The tolerance window as an interval -/

theorem inTol_iff {mass tol x : ℚ} (hm : 0 < mass) :
    inTol mass tol x ↔ mass * (1 - tol) ≤ x ∧ x ≤ mass * (1 + tol) := by
  unfold inTol relErr
  rw [abs_div, abs_of_pos hm, div_le_iff₀ hm, abs_le]
  constructor
  · rintro ⟨h1, h2⟩; constructor <;> nlinarith
  · rintro ⟨h1, h2⟩; constructor <;> nlinarith

theorem inTol_between {mass tol x y z : ℚ} (hm : 0 < mass)
    (hxy : x ≤ y) (hyz : y ≤ z) (hx : inTol mass tol x) (hz : inTol mass tol z) :
    inTol mass tol y := by
  rw [inTol_iff hm] at *
  exact ⟨le_trans hx.1 hxy, le_trans hyz hz.2⟩

/-! ### Characterisation of the sweep loops -/

theorem sweepLowF_spec (arr : List ℚ) (mass tol : ℚ) :
    ∀ (fuel : ℕ) (i : ℤ), i.toNat < fuel →
      sweepLowF arr mass tol fuel i ≤ i ∧
      (∀ j : ℕ, sweepLowF arr mass tol fuel i < (j : ℤ) → (j : ℤ) ≤ i →
        inTol mass tol (elemAt arr j)) ∧
      (0 < sweepLowF arr mass tol fuel i →
        ∃ jn : ℕ, (jn : ℤ) = sweepLowF arr mass tol fuel i ∧
          ¬ inTol mass tol (elemAt arr jn)) := by
  intro fuel
  induction fuel with
  | zero => intro i hfi; omega
  | succ fuel ih =>
    intro i hfi
    by_cases hpos : 0 < i
    · by_cases htol : |relErr (elemAt arr i.toNat) mass| ≤ tol
      · have hstep : sweepLowF arr mass tol (fuel + 1) i =
            sweepLowF arr mass tol fuel (i - 1) := by
          simp [sweepLowF, hpos, htol]
        obtain ⟨ihle, ihin, ihstop⟩ := ih (i - 1) (by omega)
        rw [hstep]
        have h1 : sweepLowF arr mass tol fuel (i - 1) ≤ i := by
          clear ihstop ihin; omega
        refine ⟨h1, ?_, ihstop⟩
        intro j hj1 hj2
        rcases lt_or_eq_of_le hj2 with hj2' | hj2'
        · exact ihin j hj1 (by clear ihstop ihin h1; omega)
        · have hj : j = i.toNat := by clear ihstop ihin h1 ihle; omega
          rw [hj]
          exact htol
      · have hstep : sweepLowF arr mass tol (fuel + 1) i = i := by
          simp [sweepLowF, hpos, htol]
        rw [hstep]
        exact ⟨le_refl _, fun j hj1 hj2 => absurd (lt_of_lt_of_le hj1 hj2) (lt_irrefl _),
          fun _ => ⟨i.toNat, by omega, htol⟩⟩
    · have hstep : sweepLowF arr mass tol (fuel + 1) i = i := by
        simp [sweepLowF, hpos]
      rw [hstep]
      exact ⟨le_refl _, fun j hj1 hj2 => absurd (lt_of_lt_of_le hj1 hj2) (lt_irrefl _),
        fun h => absurd h (by omega)⟩

theorem sweepLow_spec (arr : List ℚ) (mass tol : ℚ) (i : ℤ) :
    sweepLow arr mass tol i ≤ i ∧
    (∀ j : ℕ, sweepLow arr mass tol i < (j : ℤ) → (j : ℤ) ≤ i →
      inTol mass tol (elemAt arr j)) ∧
    (0 < sweepLow arr mass tol i →
      ∃ jn : ℕ, (jn : ℤ) = sweepLow arr mass tol i ∧
        ¬ inTol mass tol (elemAt arr jn)) :=
  sweepLowF_spec arr mass tol (i.toNat + 1) i (by omega)

theorem sweepLowF_ge (arr : List ℚ) (mass tol : ℚ) :
    ∀ (fuel : ℕ) (i : ℤ), -1 ≤ i → -1 ≤ sweepLowF arr mass tol fuel i := by
  intro fuel
  induction fuel with
  | zero => intro i hi; exact hi
  | succ fuel ih =>
    intro i hi
    by_cases hpos : 0 < i
    · by_cases htol : |relErr (elemAt arr i.toNat) mass| ≤ tol
      · have hstep : sweepLowF arr mass tol (fuel + 1) i =
            sweepLowF arr mass tol fuel (i - 1) := by
          simp [sweepLowF, hpos, htol]
        rw [hstep]
        exact ih (i - 1) (by omega)
      · have hstep : sweepLowF arr mass tol (fuel + 1) i = i := by
          simp [sweepLowF, hpos, htol]
        rw [hstep]; exact hi
    · have hstep : sweepLowF arr mass tol (fuel + 1) i = i := by
        simp [sweepLowF, hpos]
      rw [hstep]; exact hi

theorem sweepHighF_spec (arr : List ℚ) (mass tol : ℚ) :
    ∀ (fuel : ℕ) (i : ℕ), arr.length ≤ fuel + i →
      i ≤ sweepHighF arr mass tol fuel i ∧
      (i ≤ arr.length → sweepHighF arr mass tol fuel i ≤ arr.length) ∧
      (∀ j : ℕ, i ≤ j → j < sweepHighF arr mass tol fuel i →
        inTol mass tol (elemAt arr j)) ∧
      (sweepHighF arr mass tol fuel i < arr.length →
        ¬ inTol mass tol (elemAt arr (sweepHighF arr mass tol fuel i))) := by
  intro fuel
  induction fuel with
  | zero =>
    intro i hfi
    have hstep : sweepHighF arr mass tol 0 i = i := rfl
    rw [hstep]
    exact ⟨le_refl _, fun h => h, fun j hj1 hj2 => absurd (lt_of_le_of_lt hj1 hj2) (lt_irrefl _),
      fun h => absurd h (by omega)⟩
  | succ fuel ih =>
    intro i hfi
    by_cases hlt : i < arr.length
    · by_cases htol : |relErr (elemAt arr i) mass| ≤ tol
      · have hstep : sweepHighF arr mass tol (fuel + 1) i =
            sweepHighF arr mass tol fuel (i + 1) := by
          simp [sweepHighF, hlt, htol]
        obtain ⟨ihle, ihbound, ihin, ihstop⟩ := ih (i + 1) (by omega)
        rw [hstep]
        have h1 : i ≤ sweepHighF arr mass tol fuel (i + 1) := by
          clear ihstop ihin ihbound; omega
        refine ⟨h1, fun _ => ihbound (by clear ihstop ihin h1 ihle; omega), ?_, ihstop⟩
        intro j hj1 hj2
        rcases lt_or_eq_of_le hj1 with hj1' | hj1'
        · exact ihin j (by clear ihstop ihbound h1 ihle; omega) hj2
        · rw [← hj1']
          exact htol
      · have hstep : sweepHighF arr mass tol (fuel + 1) i = i := by
          simp [sweepHighF, hlt, htol]
        rw [hstep]
        exact ⟨le_refl _, fun h => h,
          fun j hj1 hj2 => absurd (lt_of_le_of_lt hj1 hj2) (lt_irrefl _), fun _ => htol⟩
    · have hstep : sweepHighF arr mass tol (fuel + 1) i = i := by
        simp [sweepHighF, hlt]
      rw [hstep]
      exact ⟨le_refl _, fun h => by omega,
        fun j hj1 hj2 => absurd (lt_of_le_of_lt hj1 hj2) (lt_irrefl _), fun h => absurd h hlt⟩

theorem sweepHigh_spec (arr : List ℚ) (mass tol : ℚ) (i : ℕ) :
    i ≤ sweepHigh arr mass tol i ∧
    (i ≤ arr.length → sweepHigh arr mass tol i ≤ arr.length) ∧
    (∀ j : ℕ, i ≤ j → j < sweepHigh arr mass tol i →
      inTol mass tol (elemAt arr j)) ∧
    (sweepHigh arr mass tol i < arr.length →
      ¬ inTol mass tol (elemAt arr (sweepHigh arr mass tol i))) :=
  sweepHighF_spec arr mass tol (arr.length + 1 - i) i (by omega)

theorem elemAt_mono {arr : List ℚ} (hsort : List.Sorted (· ≤ ·) arr) {a b : ℕ}
    (hab : a ≤ b) (hb : b < arr.length) : elemAt arr a ≤ elemAt arr b := by
  have ha : a < arr.length := lt_of_le_of_lt hab hb
  have := List.Sorted.rel_get_of_le hsort (a := ⟨a, ha⟩) (b := ⟨b, hb⟩) hab
  simpa [elemAt, List.getD_eq_getElem?_getD, List.getElem?_eq_getElem, ha, hb,
    List.get_eq_getElem] using this

theorem bsLoop_matched (arr : List ℚ) (mass tol : ℚ)
    (hsort : List.Sorted (· ≤ ·) arr) (hm : 0 < mass) :
    ∀ (fuel lo hi : ℕ) (l : List ℤ), hi ≤ arr.length →
      bsLoop arr mass tol fuel lo hi = (l, true) →
      matchedRangeChar arr mass tol l := by
  intro fuel
  induction fuel with
  | zero =>
    intro lo hi l _ h
    simp [bsLoop] at h
  | succ fuel ih =>
    intro lo hi l hle h
    by_cases hlh : lo < hi
    · simp only [bsLoop, if_pos hlh] at h
      set mid := (hi + lo) / 2 with hmid
      have hmidlt : mid < arr.length := by omega
      by_cases htol : |relErr (elemAt arr mid) mass| ≤ tol
      · rw [if_pos htol] at h
        obtain ⟨hl, -⟩ := Prod.mk.injEq .. ▸ h
        have hmidTol : inTol mass tol (elemAt arr mid) := htol
        obtain ⟨lowLe, lowIn, lowStop⟩ := sweepLow_spec arr mass tol ((mid : ℤ) - 1)
        obtain ⟨highGe, highBound, highIn, highStop⟩ :=
          sweepHigh_spec arr mass tol (mid + 1)
        set L := sweepLow arr mass tol ((mid : ℤ) - 1) with hL
        set H := sweepHigh arr mass tol (mid + 1) with hH
        have hLge : -1 ≤ L :=
          sweepLowF_ge arr mass tol (((mid : ℤ) - 1).toNat + 1) ((mid : ℤ) - 1) (by omega)
        refine ⟨L, H, hl.symm, hLge, by omega, highBound (by omega), ?_, ?_⟩
        · intro j hj1 hj2
          rcases lt_trichotomy (j : ℤ) (mid : ℤ) with hj | hj | hj
          · exact lowIn j hj1 (by omega)
          · have : j = mid := by omega
            rw [this]; exact hmidTol
          · exact highIn j (by omega) hj2
        · intro j hjlen hjTol
          constructor
          · by_contra hcon
            push_neg at hcon
            have hLpos : 0 < L := by omega
            obtain ⟨jn, hjn, hjnOut⟩ := lowStop hLpos
            have hjjn : j ≤ jn := by omega
            have hjnmid : jn ≤ mid := by omega
            exact hjnOut (inTol_between hm
              (elemAt_mono hsort hjjn (by omega))
              (elemAt_mono hsort hjnmid hmidlt) hjTol hmidTol)
          · by_contra hcon
            push_neg at hcon
            have hHlt : H < arr.length := lt_of_le_of_lt hcon hjlen
            have hout := highStop hHlt
            exact hout (inTol_between hm
              (elemAt_mono hsort (by omega) hHlt)
              (elemAt_mono hsort hcon hjlen) hmidTol hjTol)
      · rw [if_neg htol] at h
        by_cases hone : hi - lo = 1
        · simp [hone] at h
        · rw [if_neg hone] at h
          by_cases hpos : 0 < relErr (elemAt arr mid) mass
          · rw [if_pos hpos] at h
            exact ih lo mid l (by omega) h
          · rw [if_neg hpos] at h
            exact ih mid hi l hle h
    · simp [bsLoop, hlh] at h

/-! ## Claim C3 -/

/-- Claim C3, counterexample.  The claim states that on a match the returned
index list is *exactly* the set of in-tolerance positions, with both sweep
boundaries excluding the first out-of-tolerance position.  On the sorted array
of masses `[1, 2, 2]` with query mass `2` and tolerance `1e-5`, the search
matches and returns `([0, 1, 2], True)`, yet position `0` (mass `1`) is far
outside the tolerance window: the backward sweep's final position `low_end` is
itself included in `range(low_end, high_end)`. -/
theorem claim_C3_counterexample :
    (binarySearchWithFlag [1, 2, 2] 2 (1/100000)).2 = true ∧
    (0 : ℤ) ∈ (binarySearchWithFlag [1, 2, 2] 2 (1/100000)).1 ∧
    ¬ inTol 2 (1/100000) (elemAt [1, 2, 2] 0) := by
  refine ⟨by decide, by decide, by decide⟩

/-- Claim C3, amended.  For a mass-sorted array and positive query mass, when
`binary_search_with_flag` (grouping.py) returns `(indices, True)`, the index
list is the half-open range `[low_end, high_end)` in which (a) every position
strictly above `low_end` is within the relative-error tolerance, (b) every
within-tolerance position of the array is contained in the range, and (c) the
forward-sweep boundary `high_end` excludes the first out-of-tolerance
position, as claimed — but the backward boundary `low_end` is itself included
in the returned list even when it is out of tolerance (or `-1`), so the list
is not exactly the in-tolerance set. -/
theorem claim_C3_amended (arr : List ℚ) (mass tol : ℚ) (l : List ℤ)
    (hsort : List.Sorted (· ≤ ·) arr) (hm : 0 < mass)
    (hrun : binarySearchWithFlag arr mass tol = (l, true)) :
    matchedRangeChar arr mass tol l :=
  bsLoop_matched arr mass tol hsort hm arr.length 0 arr.length l (le_refl _) hrun

/-- Witness for `claim_C3_amended` at the concrete input `[1, 2, 2]`, mass 2,
tolerance `1e-5`. -/
theorem claim_C3_amended_witness :
    matchedRangeChar [1, 2, 2] 2 (1/100000) [0, 1, 2] :=
  claim_C3_amended [1, 2, 2] 2 (1/100000) [0, 1, 2] (by decide) (by decide) (by decide)

/-! ### The derived neutral mass under `insert` -/

theorem firstMaxPeak_eq_none {xs : List Peak} :
    firstMaxPeak xs = none ↔ xs = [] := by
  cases xs with
  | nil => simp [firstMaxPeak]
  | cons p ps =>
    simp only [firstMaxPeak]
    cases firstMaxPeak ps with
    | none => simp
    | some q => by_cases hq : q.intensity > p.intensity <;> simp [hq]

theorem firstMaxPeak_append (xs : List Peak) (p s : Peak)
    (h : firstMaxPeak xs = some s) :
    firstMaxPeak (xs ++ [p]) =
      if p.intensity > s.intensity then some p else some s := by
  induction xs generalizing s with
  | nil => simp [firstMaxPeak] at h
  | cons x xs ih =>
    cases hfm : firstMaxPeak xs with
    | none =>
      have hxs : xs = [] := firstMaxPeak_eq_none.1 hfm
      subst hxs
      simp only [firstMaxPeak, Option.some.injEq] at h
      subst h
      simp [firstMaxPeak]
    | some t =>
      have hlhs := ih t hfm
      have hs : s = if t.intensity > x.intensity then t else x := by
        simp only [firstMaxPeak, hfm] at h
        by_cases h2 : t.intensity > x.intensity <;> simp [h2] at h <;> simp [h2, ← h]
      have hstep : firstMaxPeak ((x :: xs) ++ [p]) =
          match firstMaxPeak (xs ++ [p]) with
          | none => some x
          | some q => if q.intensity > x.intensity then some q else some x := by
        simp [firstMaxPeak]
      rw [hstep, hlhs]
      by_cases h1 : p.intensity > t.intensity <;>
        by_cases h2 : t.intensity > x.intensity <;>
        simp only [h1, h2, if_true, if_false, hs] <;>
        by_cases h3 : p.intensity > x.intensity <;>
        simp only [h3, if_true, if_false] <;>
        first
        | rfl
        | (exfalso; rcases lt_trichotomy p.intensity x.intensity with hh | hh | hh <;>
            simp_all <;> linarith)

theorem Chrom.peaks_insertPeak (c : Chrom) (scan : ℕ) (p : Peak) (rt : ℚ) :
    (c.insertPeak scan p rt).peaks = c.peaks ++ [p] := by
  simp [Chrom.insertPeak, Chrom.peaks]

theorem Chrom.neutralMass_insertPeak (c : Chrom) (scan : ℕ) (p : Peak) (rt : ℚ) :
    (c.insertPeak scan p rt).neutralMass = p.mass ∨
    (c.insertPeak scan p rt).neutralMass = c.neutralMass := by
  unfold Chrom.neutralMass
  rw [Chrom.peaks_insertPeak]
  cases hfm : firstMaxPeak c.peaks with
  | none =>
    have : c.peaks = [] := firstMaxPeak_eq_none.1 hfm
    rw [this]
    left
    simp [firstMaxPeak]
  | some s =>
    rw [firstMaxPeak_append c.peaks p s hfm]
    by_cases h1 : p.intensity > s.intensity
    · left; simp [h1]
    · right; simp [h1, hfm]

/-! ### Characterisation of `find_minimizing_index` -/

theorem findMinStep_go (cs : List Chrom) (t : ℚ) :
    ∀ (l : List ℤ) (b0 : ℤ),
      ∃ b, l.foldl (findMinStep cs t) (some (b0, errQ cs t b0)) =
          some (b, errQ cs t b) ∧
        (b = b0 ∨ b ∈ l) ∧ errQ cs t b ≤ errQ cs t b0 ∧
        ∀ j ∈ l, errQ cs t b ≤ errQ cs t j := by
  intro l
  induction l with
  | nil =>
    intro b0
    exact ⟨b0, rfl, Or.inl rfl, le_refl _, by simp⟩
  | cons x xs ih =>
    intro b0
    by_cases hx : errQ cs t x < errQ cs t b0
    · obtain ⟨b, hres, hmem, hle, hall⟩ := ih x
      refine ⟨b, ?_, ?_, le_trans hle (le_of_lt hx), ?_⟩
      · rw [List.foldl_cons]
        have : findMinStep cs t (some (b0, errQ cs t b0)) x =
            some (x, errQ cs t x) := by simp [findMinStep, hx]
        rw [this, hres]
      · rcases hmem with h | h
        · exact Or.inr (h ▸ List.mem_cons_self x xs)
        · exact Or.inr (List.mem_cons_of_mem x h)
      · intro j hj
        rcases List.mem_cons.1 hj with hj | hj
        · exact hj ▸ hle
        · exact hall j hj
    · obtain ⟨b, hres, hmem, hle, hall⟩ := ih b0
      refine ⟨b, ?_, ?_, hle, ?_⟩
      · rw [List.foldl_cons]
        have : findMinStep cs t (some (b0, errQ cs t b0)) x =
            some (b0, errQ cs t b0) := by simp [findMinStep, hx]
        rw [this, hres]
      · rcases hmem with h | h
        · exact Or.inl h
        · exact Or.inr (List.mem_cons_of_mem x h)
      · intro j hj
        rcases List.mem_cons.1 hj with hj | hj
        · exact hj ▸ le_trans hle (le_of_not_lt hx)
        · exact hall j hj

theorem findMinimizingIndex_spec (cs : List Chrom) (t : ℚ) (l : List ℤ)
    (hne : l ≠ []) :
    ∃ b, findMinimizingIndex cs t l = some b ∧ b ∈ l ∧
      ∀ j ∈ l, errQ cs t b ≤ errQ cs t j := by
  cases l with
  | nil => exact absurd rfl hne
  | cons x xs =>
    obtain ⟨b, hres, hmem, hle, hall⟩ := findMinStep_go cs t xs x
    refine ⟨b, ?_, ?_, ?_⟩
    · unfold findMinimizingIndex
      rw [List.foldl_cons]
      have : findMinStep cs t none x = some (x, errQ cs t x) := rfl
      rw [this, hres]
      rfl
    · rcases hmem with h | h
      · exact h ▸ List.mem_cons_self x xs
      · exact List.mem_cons_of_mem x h
    · intro j hj
      rcases List.mem_cons.1 hj with hj | hj
      · exact hj ▸ hle
      · exact hall j hj

/-- Where `binary_search_with_flag` lands when it reports no match: the final
bracket `[mid, mid + 1)` carries the bisection invariants, so the probed
element is out of tolerance, everything at or below `mid` (when `mid` was
ever moved) is below the window and everything from `mid + 1` on is above
it. -/
theorem bsLoop_unmatched (arr : List ℚ) (mass tol : ℚ) (hm : 0 < mass)
    (ht : 0 ≤ tol) :
    ∀ (fuel lo hi : ℕ) (l : List ℤ), hi - lo ≤ fuel → lo < hi →
      hi ≤ arr.length →
      (0 < lo → elemAt arr lo < mass * (1 - tol)) →
      (hi < arr.length → mass * (1 + tol) < elemAt arr hi) →
      bsLoop arr mass tol fuel lo hi = (l, false) →
      ∃ midr : ℕ, l = [(midr : ℤ)] ∧ lo ≤ midr ∧ midr < hi ∧
        ¬ inTol mass tol (elemAt arr midr) ∧
        (0 < midr → elemAt arr midr < mass * (1 - tol)) ∧
        (midr + 1 < arr.length → mass * (1 + tol) < elemAt arr (midr + 1)) := by
  intro fuel
  induction fuel with
  | zero => intro lo hi l hfuel hlh _ _ _ _; omega
  | succ fuel ih =>
    intro lo hi l hfuel hlh hle hinvlo hinvhi h
    simp only [bsLoop, if_pos hlh] at h
    set mid := (hi + lo) / 2 with hmid
    have hmidlt : mid < arr.length := by omega
    by_cases htol : |relErr (elemAt arr mid) mass| ≤ tol
    · rw [if_pos htol] at h
      exact absurd (congrArg Prod.snd h) (by simp)
    · rw [if_neg htol] at h
      have houtTol : ¬ inTol mass tol (elemAt arr mid) := htol
      have hwindow : elemAt arr mid < mass * (1 - tol) ∨
          mass * (1 + tol) < elemAt arr mid := by
        rcases not_and_or.1 ((not_iff_not.2 (inTol_iff hm)).1 htol) with hw | hw
        · left; exact lt_of_not_le hw
        · right; exact lt_of_not_le hw
      by_cases hone : hi - lo = 1
      · rw [if_pos hone] at h
        obtain ⟨hl, -⟩ := Prod.mk.injEq .. ▸ h
        have hmideq : mid = lo := by omega
        refine ⟨mid, hl.symm, by omega, by omega, houtTol, ?_, ?_⟩
        · intro hposm
          rw [hmideq]
          exact hinvlo (by omega)
        · intro hlt
          have heq : mid + 1 = hi := by omega
          rw [heq]
          exact hinvhi (heq ▸ hlt)
      · rw [if_neg hone] at h
        by_cases hpos : 0 < relErr (elemAt arr mid) mass
        · rw [if_pos hpos] at h
          -- `err > tol`: the probed mass is above the window, recurse left.
          have hup : mass * (1 + tol) < elemAt arr mid := by
            rcases hwindow with hw | hw
            · exfalso
              unfold relErr at hpos
              rw [div_pos_iff] at hpos
              rcases hpos with ⟨h1, -⟩ | ⟨-, h2⟩
              · have hle1 : mass * (1 - tol) ≤ mass := by nlinarith
                linarith
              · linarith
            · exact hw
          obtain ⟨m2, h1, h2, h3, h4, h5, h6⟩ :=
            ih lo mid l (by omega) (by omega) (by omega) hinvlo (fun _ => hup) h
          exact ⟨m2, h1, h2, by omega, h4, h5, h6⟩
        · rw [if_neg hpos] at h
          have hdown : elemAt arr mid < mass * (1 - tol) := by
            rcases hwindow with hw | hw
            · exact hw
            · exfalso
              have hgt : 0 < relErr (elemAt arr mid) mass := by
                unfold relErr
                have hmlt : mass < elemAt arr mid := by nlinarith
                exact div_pos (by linarith) hm
              exact hpos hgt
          obtain ⟨m2, h1, h2, h3, h4, h5, h6⟩ :=
            ih mid hi l (by omega) (by omega) hle (fun _ => hdown) hinvhi h
          exact ⟨m2, h1, by omega, h3, h4, h5, h6⟩

/-! ### Sorted-list surgery helpers -/

theorem mem_pyRange {a b z : ℤ} : z ∈ pyRange a b ↔ a ≤ z ∧ z < b := by
  unfold pyRange
  constructor
  · intro h
    rw [List.mem_map] at h
    obtain ⟨k, hk, rfl⟩ := h
    rw [List.mem_range] at hk
    omega
  · intro h
    rw [List.mem_map]
    refine ⟨(z - a).toNat, ?_, by omega⟩
    rw [List.mem_range]
    omega

theorem inTol_iff_absdiv {mass tol x : ℚ} (hm : 0 < mass) :
    inTol mass tol x ↔ |x - mass| / mass ≤ tol := by
  unfold inTol relErr
  rw [abs_div, abs_of_pos hm]

theorem insertIdx_eq_take_drop {α : Type} (a : α) :
    ∀ (n : ℕ) (l : List α), n ≤ l.length →
      l.insertIdx n a = l.take n ++ a :: l.drop n := by
  intro n
  induction n with
  | zero => intro l _; simp
  | succ n ih =>
    intro l hl
    cases l with
    | nil => simp at hl
    | cons x xs =>
      simp only [List.insertIdx_succ_cons, List.take_succ_cons, List.drop_succ_cons,
        List.cons_append, List.cons.injEq, true_and]
      exact ih xs (by simpa using hl)

theorem pyInsert_eq_insertIdx {α : Type} (xs : List α) (i : ℤ) (x : α)
    (h0 : 0 ≤ i) (h1 : i ≤ xs.length) :
    pyInsert xs i x = xs.insertIdx i.toNat x := by
  unfold pyInsert
  rw [insertIdx_eq_take_drop x i.toNat xs (by omega)]
  simp only [h0, if_pos]
  congr 2 <;> [skip; skip] <;> congr 1 <;> omega

theorem sorted_getElem_lt {ms : List ℚ} (hs : List.Sorted (· < ·) ms) {a b : ℕ}
    (hab : a < b) (hb : b < ms.length) (ha : a < ms.length) :
    ms[a] < ms[b] :=
  List.pairwise_iff_getElem.1 hs a b ha hb hab

theorem elemAt_eq_getElem {ms : List ℚ} {k : ℕ} (h : k < ms.length) :
    elemAt ms k = ms[k] := by
  simp [elemAt, List.getD_eq_getElem?_getD, List.getElem?_eq_getElem h]

/-- Replacing one element of a strictly sorted list preserves strict
sortedness when the new value lies strictly between its neighbours. -/
theorem sorted_set (ms : List ℚ) (r : ℕ) (v : ℚ) (hr : r < ms.length)
    (hs : List.Sorted (· < ·) ms)
    (hleft : 0 < r → elemAt ms (r - 1) < v)
    (hright : r + 1 < ms.length → v < elemAt ms (r + 1)) :
    List.Sorted (· < ·) (ms.set r v) := by
  refine List.pairwise_iff_getElem.2 ?_
  intro i j hi hj hij
  have hi' : i < ms.length := by simpa using hi
  have hj' : j < ms.length := by simpa using hj
  rw [List.getElem_set hi, List.getElem_set hj]
  by_cases hir : r = i <;> by_cases hjr : r = j
  · omega
  · rw [if_pos hir, if_neg hjr]
    have hrj : r + 1 ≤ j := by omega
    have hr1 : r + 1 < ms.length := by omega
    have hv : v < ms[r+1] := by
      rw [← elemAt_eq_getElem hr1]; exact hright (by omega)
    rcases eq_or_lt_of_le hrj with hje | hje
    · exact hje ▸ hv
    · exact lt_trans hv (sorted_getElem_lt hs hje hj' hr1)
  · rw [if_neg hir, if_pos hjr]
    have hir' : i ≤ r - 1 := by omega
    have hrm : r - 1 < ms.length := by omega
    have hv : ms[r-1] < v := by
      rw [← elemAt_eq_getElem hrm]; exact hleft (by omega)
    rcases eq_or_lt_of_le hir' with hie | hie
    · exact hie ▸ hv
    · exact lt_trans (sorted_getElem_lt hs hie hrm (by omega)) hv
  · rw [if_neg hir, if_neg hjr]
    exact sorted_getElem_lt hs hij hj' (by omega)

/-- Inserting into a strictly sorted list at a position whose neighbours
strictly bracket the new value preserves strict sortedness. -/
theorem sorted_insertIdx (ms : List ℚ) (j : ℕ) (v : ℚ) (hj : j ≤ ms.length)
    (hs : List.Sorted (· < ·) ms)
    (hleft : 0 < j → elemAt ms (j - 1) < v)
    (hright : j < ms.length → v < elemAt ms j) :
    List.Sorted (· < ·) (ms.insertIdx j v) := by
  rw [insertIdx_eq_take_drop v j ms hj]
  refine List.pairwise_append.2
    ⟨hs.sublist (List.take_sublist j ms), ?_, ?_⟩
  · refine List.pairwise_cons.2 ⟨?_, hs.sublist (List.drop_sublist j ms)⟩
    intro b hb
    obtain ⟨i, hi, rfl⟩ := List.mem_iff_getElem.1 hb
    have hlen : i < ms.length - j := by simpa using hi
    rw [List.getElem_drop ms]
    have hjlen : j < ms.length := by omega
    have h0 : v < ms[j] := by
      rw [← elemAt_eq_getElem hjlen]; exact hright hjlen
    rcases Nat.eq_zero_or_pos i with hi0 | hi0
    · subst hi0; simpa using h0
    · exact lt_trans h0 (sorted_getElem_lt hs (by omega) (by omega) hjlen)
  · intro a ha b hb
    obtain ⟨k, hk, rfl⟩ := List.mem_iff_getElem.1 ha
    have hkj : k < j := by
      have := hk; simp only [List.length_take] at this; omega
    rw [List.getElem_take ms]
    rcases List.mem_cons.1 hb with rfl | hb
    · have hkl : k < ms.length := by omega
      have hjm : j - 1 < ms.length := by omega
      have h1 : ms[k] ≤ ms[j-1] := by
        rcases Nat.lt_or_ge k (j-1) with h | h
        · exact le_of_lt (sorted_getElem_lt hs h hjm hkl)
        · have hke : k = j - 1 := by omega
          exact le_of_eq (hke ▸ rfl)
      have h2 : ms[j-1] < b := by
        rw [← elemAt_eq_getElem hjm]; exact hleft (by omega)
      exact lt_of_le_of_lt h1 h2
    · obtain ⟨i, hi, rfl⟩ := List.mem_iff_getElem.1 hb
      have hlen : i < ms.length - j := by simpa using hi
      rw [List.getElem_drop ms]
      exact sorted_getElem_lt hs (by omega) (by omega) (by omega)

/-- Core argument for the matched branch of `handle_peak`: the candidate
chosen by `find_minimizing_index` is within tolerance of the peak mass, and
the peak mass lies strictly between the chosen chromatogram's neighbours, so
updating the chosen entry's reference mass to the peak mass keeps the forest
strictly mass-sorted. -/
theorem chosen_bounds (ms : List ℚ) (q tol : ℚ) (hq : 0 < q) (ht : 0 ≤ tol)
    (hsorted : List.Sorted (· < ·) ms)
    (L : ℤ) (H : ℕ) (hL : -1 ≤ L) (hLH : L + 2 ≤ (H : ℤ)) (hHn : H ≤ ms.length)
    (hInTol : ∀ j : ℕ, L < (j : ℤ) → j < H → inTol q tol (elemAt ms j))
    (hCover : ∀ j : ℕ, j < ms.length → inTol q tol (elemAt ms j) →
      L ≤ (j : ℤ) ∧ j < H)
    (e : ℤ → ℚ)
    (he : ∀ j : ℕ, j < ms.length → e (j : ℤ) = |elemAt ms j - q| / q)
    (b : ℤ) (r : ℕ) (hr : r < ms.length)
    (herrb : e b = |elemAt ms r - q| / q)
    (hmin : ∀ j ∈ pyRange L H, e b ≤ e j) :
    inTol q tol (elemAt ms r) ∧
    (0 < r → elemAt ms (r - 1) < q) ∧
    (r + 1 < ms.length → q < elemAt ms (r + 1)) := by
  have hj0z : (0 : ℤ) ≤ L + 1 := by omega
  set j0 : ℕ := (L + 1).toNat with hj0
  have hj0cast : (j0 : ℤ) = L + 1 := by omega
  have hj0H : j0 < H := by omega
  have hj0len : j0 < ms.length := lt_of_lt_of_le hj0H hHn
  have hj0tol : inTol q tol (elemAt ms j0) := hInTol j0 (by omega) hj0H
  have hj0mem : (j0 : ℤ) ∈ pyRange L H := mem_pyRange.2 ⟨by omega, by omega⟩
  have hbtol : e b ≤ tol := by
    refine le_trans (hmin _ hj0mem) ?_
    rw [he j0 hj0len]
    exact (inTol_iff_absdiv hq).1 hj0tol
  have hrtol : inTol q tol (elemAt ms r) := by
    rw [inTol_iff_absdiv hq, ← herrb]
    exact hbtol
  refine ⟨hrtol, ?_, ?_⟩
  · intro hr0
    have hlt : elemAt ms (r - 1) < elemAt ms r := by
      rw [elemAt_eq_getElem (by omega), elemAt_eq_getElem hr]
      exact sorted_getElem_lt hsorted (by omega) hr (by omega)
    by_cases hin : inTol q tol (elemAt ms (r - 1))
    · obtain ⟨hcL, hcH⟩ := hCover (r - 1) (by omega) hin
      have hcmem : ((r - 1 : ℕ) : ℤ) ∈ pyRange L H := mem_pyRange.2 ⟨hcL, by omega⟩
      have hminr := hmin _ hcmem
      rw [herrb, he (r - 1) (by omega)] at hminr
      have habs : |elemAt ms r - q| ≤ |elemAt ms (r - 1) - q| :=
        (div_le_div_iff_of_pos_right hq).1 hminr
      by_contra hcon
      push_neg at hcon
      rw [abs_of_nonneg (by linarith), abs_of_nonneg (by linarith)] at habs
      linarith
    · rcases not_and_or.1 ((not_iff_not.2 (inTol_iff hq)).1 hin) with hw | hw
      · have : elemAt ms (r - 1) < q * (1 - tol) := lt_of_not_le hw
        nlinarith
      · exfalso
        have h1 : q * (1 + tol) < elemAt ms (r - 1) := lt_of_not_le hw
        have h2 : elemAt ms r ≤ q * (1 + tol) := ((inTol_iff hq).1 hrtol).2
        linarith
  · intro hr1
    have hlt : elemAt ms r < elemAt ms (r + 1) := by
      rw [elemAt_eq_getElem hr, elemAt_eq_getElem hr1]
      exact sorted_getElem_lt hsorted (by omega) hr1 hr
    by_cases hin : inTol q tol (elemAt ms (r + 1))
    · obtain ⟨hcL, hcH⟩ := hCover (r + 1) hr1 hin
      have hcmem : ((r + 1 : ℕ) : ℤ) ∈ pyRange L H := mem_pyRange.2 ⟨hcL, by omega⟩
      have hminr := hmin _ hcmem
      rw [herrb, he (r + 1) hr1] at hminr
      have habs : |elemAt ms r - q| ≤ |elemAt ms (r + 1) - q| :=
        (div_le_div_iff_of_pos_right hq).1 hminr
      by_contra hcon
      push_neg at hcon
      rw [abs_of_nonpos (by linarith), abs_of_nonpos (by linarith)] at habs
      linarith
    · rcases not_and_or.1 ((not_iff_not.2 (inTol_iff hq)).1 hin) with hw | hw
      · exfalso
        have h1 : elemAt ms (r + 1) < q * (1 - tol) := lt_of_not_le hw
        have h2 : q * (1 - tol) ≤ elemAt ms r := ((inTol_iff hq).1 hrtol).1
        linarith
      · have : q * (1 + tol) < elemAt ms (r + 1) := lt_of_not_le hw
        nlinarith

/-! ### Gluing lemmas between the forest and the mass array -/

theorem elemAt_map (cs : List Chrom) {j : ℕ} (h : j < cs.length) :
    elemAt (cs.map Chrom.neutralMass) j = (cs.get ⟨j, h⟩).neutralMass := by
  rw [elemAt_eq_getElem (by simpa using h), List.getElem_map]
  rfl

theorem pyGetD_of_idx {α : Type} [Inhabited α] (cs : List α) (b : ℤ) (r : ℕ)
    (hidx : pyIdx? cs.length b = some r) (hr : r < cs.length) :
    pyGetD cs b default = cs[r] := by
  unfold pyGetD pyGet?
  rw [hidx]
  simp [List.get?_eq_getElem?, List.getElem?_eq_getElem hr]

theorem pySet_of_idx {α : Type} (cs : List α) (b : ℤ) (r : ℕ) (x : α)
    (hidx : pyIdx? cs.length b = some r) :
    pySet cs b x = cs.set r x := by
  unfold pySet
  rw [hidx]

theorem map_pyInsert {α β : Type} (f : α → β) (cs : List α) (i : ℤ) (x : α) :
    (pyInsert cs i x).map f = pyInsert (cs.map f) i (f x) := by
  unfold pyInsert
  simp [List.map_take, List.map_drop]

theorem freshChrom_mass (scan : ℕ) (p : Peak) (rt : ℚ) :
    (freshChrom scan p rt).neutralMass = p.mass := rfl

theorem inTol_refl {q tol : ℚ} (ht : 0 ≤ tol) : inTol q tol q := by
  simp only [inTol, relErr, sub_self, zero_div, abs_zero]
  exact ht

theorem resolveIdx (n : ℕ) (b : ℤ) (hb1 : -1 ≤ b) (hb2 : b < n) (hn : 1 ≤ n) :
    ∃ r : ℕ, pyIdx? n b = some r ∧ r < n := by
  by_cases h0 : 0 ≤ b
  · exact ⟨b.toNat, pyIdx?_nonneg h0 hb2, by omega⟩
  · have hbm : b = -1 := by omega
    subst hbm
    refine ⟨n - 1, ?_, by omega⟩
    unfold pyIdx?
    simp only [if_neg (by omega : ¬ (0:ℤ) ≤ -1), if_pos (by omega : (0:ℤ) ≤ -1 + n)]
    congr 1
    omega

/-- The single-step invariant: `handle_peak` preserves strict sorting of the
forest by derived neutral mass. -/
theorem handlePeak_sorted (tol : ℚ) (ht : 0 ≤ tol) (rtOf : ℕ → ℚ)
    (cs : List Chrom) (scan : ℕ) (p : Peak) (hq : 0 < p.mass)
    (hinv : List.Sorted (· < ·) (cs.map Chrom.neutralMass)) :
    List.Sorted (· < ·) ((handlePeak tol rtOf cs scan p).map Chrom.neutralMass) := by
  set q := p.mass with hqdef
  set ms := cs.map Chrom.neutralMass with hms
  have hmslen : ms.length = cs.length := by simp [hms]
  by_cases hcs0 : cs.length = 0
  · have hcsnil : cs = [] := List.length_eq_zero.1 hcs0
    subst hcsnil
    simp [handlePeak, insertChromatogram, pyInsert]
  · have hn1 : 1 ≤ cs.length := by omega
    have hstep : handlePeak tol rtOf cs scan p =
        (let res := binarySearchWithFlag ms q tol
         if res.2 then
           match findMinimizingIndex cs q res.1 with
           | some best =>
             pySet cs best ((pyGetD cs best default).insertPeak scan p (rtOf scan))
           | none => cs
         else insertChromatogram cs (freshChrom scan p (rtOf scan)) res.1) := by
      simp only [handlePeak, if_neg hcs0, hms, hqdef]
    rw [hstep]
    set res := binarySearchWithFlag ms q tol with hres
    by_cases hflag : res.2
    · -- matched branch
      have hrun : binarySearchWithFlag ms q tol = (res.1, true) := by
        rw [← hres]
        exact Prod.ext rfl (by simpa using hflag)
      obtain ⟨L, H, hrange, hL, hLH, hHn, hInTol, hCover⟩ :=
        bsLoop_matched ms q tol (hinv.imp fun h => le_of_lt h) hq
          ms.length 0 ms.length res.1 (le_refl _) hrun
      have hlne : res.1 ≠ [] := by
        rw [hrange]
        exact List.ne_nil_of_mem (mem_pyRange.2 (⟨by omega, by omega⟩ : L ≤ L + 1 ∧ L + 1 < H))
      obtain ⟨b, hfm, hbmem, hminAll⟩ := findMinimizingIndex_spec cs q res.1 hlne
      have hbrange : L ≤ b ∧ b < H := mem_pyRange.1 (hrange ▸ hbmem)
      obtain ⟨r, hidx, hr⟩ := resolveIdx cs.length b (by omega) (by omega) hn1
      have hgetb : pyGetD cs b default = cs[r] := pyGetD_of_idx cs b r hidx hr
      have he : ∀ j : ℕ, j < ms.length → errQ cs q (j : ℤ) =
          |elemAt ms j - q| / q := by
        intro j hj
        unfold errQ
        rw [pyGetD_of_idx cs (j : ℤ) j (pyIdx?_nonneg (by omega) (by omega)) (by omega),
          elemAt_map cs (by omega)]
        rfl
      have herrb : errQ cs q b = |elemAt ms r - q| / q := by
        unfold errQ
        rw [hgetb, elemAt_map cs hr]
        rfl
      have hmin' : ∀ j ∈ pyRange L H, errQ cs q b ≤ errQ cs q j := by
        intro j hj
        exact hminAll j (hrange ▸ hj)
      obtain ⟨hrtol, hleft, hright⟩ :=
        chosen_bounds ms q tol hq ht hinv L H hL hLH hHn hInTol hCover
          (errQ cs q) he b r (by omega) herrb hmin'
      rw [if_pos hflag]
      simp only [hfm]
      rw [pySet_of_idx cs b r _ hidx, List.map_set]
      rcases Chrom.neutralMass_insertPeak (pyGetD cs b default) scan p (rtOf scan)
        with hv | hv
      · rw [hv]
        exact sorted_set ms r q (by omega) hinv hleft hright
      · have hcg : (cs[r] : Chrom) = cs.get ⟨r, hr⟩ := rfl
        rw [hv, hgetb, hcg, ← elemAt_map cs hr]
        refine sorted_set ms r (elemAt ms r) (by omega) hinv ?_ ?_
        · intro h0
          rw [elemAt_eq_getElem (by omega), elemAt_eq_getElem (by omega)]
          exact sorted_getElem_lt hinv (by omega) (by omega) (by omega)
        · intro h1
          rw [elemAt_eq_getElem (by omega), elemAt_eq_getElem (by omega)]
          exact sorted_getElem_lt hinv (by omega) (by omega) (by omega)
    · -- unmatched branch: insert a fresh single-peak chromatogram
      have hrun : binarySearchWithFlag ms q tol = (res.1, false) := by
        rw [← hres]
        exact Prod.ext rfl (by simpa using hflag)
      have hrunloop : bsLoop ms q tol ms.length 0 ms.length = (res.1, false) := hrun
      obtain ⟨midr, hl, hlo, hhi, houtTol, hbelow, habove⟩ :=
        bsLoop_unmatched ms q tol hq ht ms.length 0 ms.length res.1
          (by omega) (by omega) (le_refl _)
          (fun h => absurd h (lt_irrefl 0))
          (fun h => absurd h (lt_irrefl _)) hrunloop
      rw [if_neg hflag, hl]
      have hfreshm : (freshChrom scan p (rtOf scan)).neutralMass = q := freshChrom_mass ..
      unfold insertChromatogram
      simp only [List.headD_cons]
      by_cases hmid0 : (midr : ℤ) ≠ 0
      · rw [if_pos hmid0]
        have hmp : 0 < midr := by omega
        rw [map_pyInsert, hfreshm, ← hms,
          pyInsert_eq_insertIdx ms ((midr : ℤ) + 1) q (by omega) (by omega)]
        have htn : ((midr : ℤ) + 1).toNat = midr + 1 := by omega
        rw [htn]
        refine sorted_insertIdx ms (midr + 1) q (by omega) hinv ?_ ?_
        · intro _
          have h1 : elemAt ms midr < q * (1 - tol) := hbelow hmp
          have hie : midr + 1 - 1 = midr := by omega
          rw [hie]
          nlinarith
        · intro hlt
          have h1 : q * (1 + tol) < elemAt ms (midr + 1) := habove (by omega)
          nlinarith
      · rw [if_neg hmid0]
        have hmid0' : midr = 0 := by omega
        subst hmid0'
        rw [if_neg (by omega : ¬ cs.length = 0)]
        simp only [Nat.cast_zero]
        have hget0 : (pyGetD cs (0 : ℤ) default).neutralMass = elemAt ms 0 := by
          rw [pyGetD_of_idx cs 0 0 (pyIdx?_nonneg (by omega) (by omega)) (by omega),
            elemAt_map cs (by omega)]
          rfl
        rw [hget0, hfreshm]
        by_cases hcmp : elemAt ms 0 < q
        · rw [if_pos hcmp, map_pyInsert, hfreshm, ← hms,
            pyInsert_eq_insertIdx ms 1 q (by omega) (by omega)]
          refine sorted_insertIdx ms ((1 : ℤ).toNat) q (by omega) hinv ?_ ?_
          · intro _
            simpa using hcmp
          · intro hlt
            have h1 : q * (1 + tol) < elemAt ms 1 := habove (by simpa using hlt)
            simp only [Int.toNat_one]
            nlinarith
        · rw [if_neg hcmp, map_pyInsert, hfreshm, ← hms,
            pyInsert_eq_insertIdx ms 0 q (by omega) (by omega)]
          refine sorted_insertIdx ms ((0 : ℤ).toNat) q (by omega) hinv ?_ ?_
          · intro h0
            simp at h0
          · intro _
            have hle : q ≤ elemAt ms 0 := le_of_not_lt hcmp
            rcases eq_or_lt_of_le hle with heq | hlt
            · exfalso
              exact houtTol (heq ▸ inTol_refl ht)
            · simpa using hlt

theorem handlePeaks_fold_sorted (tol : ℚ) (ht : 0 ≤ tol) (rtOf : ℕ → ℚ) :
    ∀ (events : List (ℕ × Peak)) (cs : List Chrom),
      (∀ e ∈ events, 0 < e.2.mass) →
      List.Sorted (· < ·) (cs.map Chrom.neutralMass) →
      List.Sorted (· < ·)
        ((events.foldl (fun acc e => handlePeak tol rtOf acc e.1 e.2) cs).map
          Chrom.neutralMass) := by
  intro events
  induction events with
  | nil => intro cs _ hinv; exact hinv
  | cons e es ih =>
    intro cs hmass hinv
    rw [List.foldl_cons]
    exact ih (handlePeak tol rtOf cs e.1 e.2)
      (fun x hx => hmass x (List.mem_cons_of_mem e hx))
      (handlePeak_sorted tol ht rtOf cs e.1 e.2
        (hmass e (List.mem_cons_self e es)) hinv)

/-! ## Claim C4 -/

/-- Claim C4.  Starting from an empty `ChromatogramForest`, after any finite
sequence of `handle_peak(scan_id, peak)` calls (with positive peak masses and
a non-negative error tolerance), the list `self.chromatograms` is sorted
ascending by `neutral_mass` — both when a peak is inserted into an existing
matching chromatogram (which can move that entry's derived reference mass)
and when a new singleton chromatogram is inserted at the position chosen by
`insert_chromatogram`.  The proof maintains the stronger invariant that the
masses are strictly increasing. -/
theorem claim_C4 (tol : ℚ) (rtOf : ℕ → ℚ) (events : List (ℕ × Peak))
    (ht : 0 ≤ tol) (hmasses : ∀ e ∈ events, 0 < e.2.mass) :
    List.Sorted (· ≤ ·)
      ((events.foldl (fun acc e => handlePeak tol rtOf acc e.1 e.2) []).map
        Chrom.neutralMass) :=
  (handlePeaks_fold_sorted tol ht rtOf events [] hmasses (by simp)).imp
    fun h => le_of_lt h

/-- Witness for `claim_C4`: three peaks (two of them within tolerance of each
other) processed through `handle_peak` leave the forest mass-sorted. -/
theorem claim_C4_witness :
    List.Sorted (· ≤ ·)
      (((([(1, ⟨1000, 50⟩), (2, ⟨500, 40⟩), (3, ⟨1000 + 1/250, 30⟩)] :
          List (ℕ × Peak))).foldl
        (fun acc e => handlePeak (1/100000) (fun s => (s : ℚ)) acc e.1 e.2)
        []).map Chrom.neutralMass) :=
  claim_C4 (1/100000) (fun s => (s : ℚ))
    [(1, ⟨1000, 50⟩), (2, ⟨500, 40⟩), (3, ⟨1000 + 1/250, 30⟩)]
    (by norm_num) (by decide)

/-! ## Claims C1 and C2 -/

/-- Claim C1, failing input.  Two unassigned chromatograms with *identical*
neutral mass 1000 overlapping in retention time ([0,10] and [5,15]) pass
through `ChromatogramOverlapSmoother` unmerged: in `merge_overlaps` the float
`abs((chroma.neutral_mass - new.neutral_mass)/new.neutral_mass)` is used as
a boolean, which is falsy exactly when the masses are equal, so the true
duplicate is *inserted* next to its twin instead of merged.  The root
solution therefore contains two entries within tolerance (relative error 0)
that overlap in time — `is_sparse_and_disjoint` rejects it, contradicting
the claimed invariant. -/
theorem claim_C1_failing :
    ∃ l, chromatogramOverlapSmoother [cexEqualA, cexEqualB] (1/100000) = .ok l ∧
      l.length = 2 ∧
      (l.getD 0 default).neutralMass = (l.getD 1 default).neutralMass ∧
      spanOverlap (l.getD 0 default) (l.getD 1 default) = true ∧
      isSparseAndDisjoint l = false := by
  refine ⟨[cexEqualB, cexEqualA], by decide, by decide, by decide, by decide, by decide⟩

/-- Claim C2, failing input.  `handle_new_chromatogram` is given a merger
holding one chromatogram at mass 1000 over [0, 1] and a new chromatogram at
mass 1000.005 (within the 1e-5 tolerance) over [5, 6].  The two do **not**
overlap in retention time, yet the merger merges them into a single entry:
`merge_overlaps` tests `chroma.overlaps_in_time(chroma)` — the candidate
against itself, which always holds — instead of against the new
chromatogram, and treats the nonzero mass difference as `True`.  The claim's
"merged if and only if ... overlaps the new chromatogram in retention time"
is violated. -/
theorem claim_C2_failing :
    spanOverlap cexDisjointA cexDisjointB = false ∧
    |relErr cexDisjointA.neutralMass cexDisjointB.neutralMass| ≤ 1/100000 ∧
    ∃ l, handleNewChromatogram (1/100000) [cexDisjointA] cexDisjointB = .ok l ∧
      l.length = 1 := by
  refine ⟨by decide, by decide, _, rfl, by decide⟩

/-- **C10.** The claim says `mass_between(low, high)` on a non-empty,
mass-sorted filter with `low ≤ high` performs no out-of-range list access.
Failing input: a filter holding a single chromatogram at neutral mass 1500,
queried with `low = 1000`, `high = 2000`.  Both binary searches return
index 0 without a match, the code then adds 2 and evaluates
`self[2].neutral_mass` in a length-1 list: an `IndexError` (`.error ()`
in the model), although every hypothesis of the claim holds. -/
theorem claim_C10_failing :
    (cexMassBetween.length = 1 ∧
      List.Sorted (· ≤ ·) (cexMassBetween.map Chrom.neutralMass) ∧
      (1000 : ℚ) ≤ 2000) ∧
    massBetween cexMassBetween 1000 2000 = .error () := by
  refine ⟨⟨by decide, by decide, by decide⟩, by decide⟩

/-- Terms of the binomial tail are non-negative for `p ∈ [0, 1]`, hence so is
the sum. -/
theorem binomialTailProbability_nonneg (n k : ℕ) {p : ℚ} (h0 : 0 ≤ p)
    (h1 : p ≤ 1) : 0 ≤ binomialTailProbability n k p := by
  unfold binomialTailProbability
  apply List.sum_nonneg
  intro x hx
  rw [List.mem_map] at hx
  obtain ⟨i, -, rfl⟩ := hx
  have h1' : (0 : ℚ) ≤ 1 - p := by linarith
  exact mul_nonneg (mul_nonneg (by positivity) (pow_nonneg h0 _))
    (pow_nonneg h1' _)

/-- The product of the nonzero entries of a list of non-negative rationals
is strictly positive. -/
theorem prodNonzero_pos (l : List ℚ) (h : ∀ x ∈ l, 0 ≤ x) :
    0 < prodNonzero l := by
  unfold prodNonzero
  apply List.prod_pos
  intro x hx
  rw [List.mem_filter] at hx
  have hne : x ≠ 0 := by simpa using hx.2
  exact lt_of_le_of_ne (h x hx.1) (Ne.symm hne)

/-- Over exact arithmetic `binomial_intensity` is strictly positive whenever
it returns: each chained tail probability at `p = 1/2` is non-negative and
the zero factors are skipped. -/
theorem binomialIntensity_pos (pis mis : List ℚ) (n : ℕ) (r : ℚ)
    (h : binomialIntensity pis mis n = some r) : 0 < r := by
  unfold binomialIntensity at h
  by_cases hlen : mis.length = 0
  · rw [if_pos hlen] at h
    cases h
    norm_num
  · rw [if_neg hlen] at h
    cases hm : medians pis with
    | none => rw [hm] at h; simp [Option.bind] at h
    | some q =>
      obtain ⟨m1, m2, m3, m4⟩ := q
      rw [hm] at h
      simp only [Bind.bind, Option.bind, Option.pure_def,
        Option.some.injEq] at h
      rw [← h]
      apply prodNonzero_pos
      intro x hx
      simp only [List.mem_cons, List.not_mem_nil, or_false] at hx
      rcases hx with rfl | rfl | rfl | rfl <;>
        exact binomialTailProbability_nonneg _ _ (by norm_num) (by norm_num)

/-- **C9** counterexample.  The claim says every zero component probability
is floored before its logarithm, making `_binomial_score` finite on all
inputs.  With one theoretical fragment, one (sanitized) match at tolerance
`2e-5` and precursor mass 1000, the fragment-matched component is
`binomial_tail_probability(1, 1, p)`, an empty `range(1, 1)` sum, i.e.
exactly `0` — and `_binomial_score` takes `log10` of it unfloored (only the
intensity component is floored), so the returned score is
`-log10 0 = +inf`; the source even prints "infinite score" on this path. -/
theorem claim_C9_counterexample :
    binomialScoreComponents 1 1 (2/100000) 1000 cexC9Peaks cexC9Matched =
      some (1, 0) := by decide

/-- **C9** amended: only the intensity component is protected.  After the
`1e-170` flooring the intensity component is strictly positive (indeed, over
exact arithmetic `binomial_intensity` never returns `0`, since zero factors
are skipped), so its `log10` is finite; the fragment-matched component is
merely non-negative (given a non-negative tolerance and
`2 * tol * matched ≤ mass`, so that its success probability lies in
`[0, 1]`) and can be exactly `0`, in which case the score is `+inf`. -/
theorem claim_C9_amended (nTheo matched : ℕ) (tol mass : ℚ)
    (pis mis : List ℚ) (ic fc : ℚ)
    (htol : 0 ≤ tol) (hmass : 0 < mass)
    (hple : 2 * tol * (matched : ℚ) ≤ mass)
    (h : binomialScoreComponents nTheo matched tol mass pis mis =
      some (ic, fc)) :
    0 < ic ∧ 0 ≤ fc := by
  unfold binomialScoreComponents at h
  cases hbi : binomialIntensity pis mis nTheo with
  | none => rw [hbi] at h; simp [Bind.bind, Option.bind] at h
  | some r =>
    rw [hbi] at h
    simp only [Bind.bind, Option.bind, Option.pure_def, Option.some.injEq,
      Prod.mk.injEq] at h
    obtain ⟨hic, hfc⟩ := h
    have hr := binomialIntensity_pos pis mis nTheo r hbi
    constructor
    · rw [← hic, if_neg (ne_of_gt hr)]
      exact hr
    · rw [← hfc]
      unfold binomialFragmentsMatched
      by_cases hm0 : matched = 0
      · rw [if_pos hm0]
        exact binomialTailProbability_nonneg _ _ le_rfl (by norm_num)
      · rw [if_neg hm0]
        have hmn : (0 : ℚ) ≤ 2 * tol * (matched : ℚ) := by positivity
        exact binomialTailProbability_nonneg _ _
          (div_nonneg hmn hmass.le) ((div_le_one hmass).2 hple)

/-- `claim_C9_amended` evaluated at the concrete scorer inputs of the
counterexample scenario. -/
theorem claim_C9_amended_witness :
    binomialScoreComponents 1 1 (2/100000) 1000 cexC9Peaks cexC9Matched =
      some (1, 0) ∧ (0 : ℚ) < 1 ∧ (0 : ℚ) ≤ 0 := by
  refine ⟨by decide, claim_C9_amended 1 1 (2/100000) 1000 cexC9Peaks
    cexC9Matched 1 0 (by norm_num) (by norm_num) (by norm_num) (by decide)⟩

/-- `pure` in the `Except` monad is `.ok`. -/
theorem except_pure {ε α : Type} (x : α) : (pure x : Except ε α) = .ok x := rfl

/-- Binding an `.ok` in the `Except` monad applies the continuation. -/
theorem except_bind_ok {ε α β : Type} (x : α) (f : α → Except ε β) :
    (Except.ok x >>= f) = f x := rfl

/-- `pyGet?` at a non-negative in-range index returns the element there. -/
theorem pyGet?_getD {α : Type} [Inhabited α] {xs : List α} {i : ℤ}
    (h0 : 0 ≤ i) (hl : i < (xs.length : ℤ)) :
    pyGet? xs i = some (xs.getD i.toNat default) := by
  rw [pyGet?_nonneg h0]
  have ht : i.toNat < xs.length := by omega
  simp [List.getD, List.get?_eq_getElem?, List.getElem?_eq_getElem ht]

/-- `getD` after `map` at an in-range index. -/
theorem getD_map_of_lt {α β : Type} [Inhabited α] [Inhabited β] (f : α → β)
    (l : List α) (k : ℕ) (h : k < l.length) :
    (l.map f).getD k default = f (l.getD k default) := by
  simp [List.getD, List.get?_eq_getElem?, List.getElem?_map,
    List.getElem?_eq_getElem h]

/-- Writing to a dict at an absent key appends the binding. -/
theorem dictSet_append {κ α : Type} [DecidableEq κ] (store : List (κ × α))
    (k : κ) (v : α) (h : ∀ kv ∈ store, kv.1 ≠ k) :
    dictSet store k v = store ++ [(k, v)] := by
  have hc : store.any (fun kv => decide (kv.1 = k)) = false := by
    rw [List.any_eq_false]
    intro kv hkv
    simpa using h kv hkv
  simp [dictSet, hc]

/-- Folding the reader over the written node lines appends each node with
its score rounded to the `%f` resolution. -/
theorem foldNodeLines (ns : List CGNode) (g : CGraph) :
    List.foldlM graphReaderStep (RState.node, g)
      (ns.map (fun n => GLine.nodeLine n.index n.composition
        (round6 n.score))) =
    .ok (RState.node, { g with nodes :=
      (g.nodes ++ ns.map roundCGNode) }) := by
  induction ns generalizing g with
  | nil => simp [List.foldlM_nil, except_pure]
  | cons n ns ih =>
    rw [List.map_cons, List.foldlM_cons]
    have hstep : graphReaderStep (RState.node, g)
        (GLine.nodeLine n.index n.composition (round6 n.score)) =
        .ok (RState.node, { g with nodes :=
          (g.nodes ++ [⟨n.composition, n.index, round6 n.score⟩]) }) := rfl
    rw [hstep, except_bind_ok, ih]
    simp [roundCGNode, List.append_assoc]

/-- Folding the reader over the written edge lines appends each edge with
its weight rounded, provided the endpoint indices are in range and match
the node positions, the orders are positive, and the keys are distinct. -/
theorem foldEdgeLines (NS : List CGNode)
    (hidx : ∀ k, k < NS.length → (NS.getD k default).index = (k : ℤ))
    (es acc : List ((String × String) × CGEdge))
    (hed : ∀ kv ∈ es,
      0 ≤ kv.2.node1 ∧ kv.2.node1 < (NS.length : ℤ) ∧
      0 ≤ kv.2.node2 ∧ kv.2.node2 < (NS.length : ℤ) ∧
      kv.1 = ((NS.getD kv.2.node1.toNat default).composition,
        (NS.getD kv.2.node2.toNat default).composition) ∧
      0 < kv.2.order)
    (hkeys : ((acc ++ es).map Prod.fst).Nodup) :
    List.foldlM graphReaderStep (RState.edge, (⟨NS, acc⟩ : CGraph))
      (es.map (fun kv => GLine.edgeLine kv.2.node1 kv.2.node2 kv.2.order
        (round6 kv.2.weight))) =
    .ok (RState.edge, ⟨NS, acc ++ es.map (fun kv => (kv.1, { kv.2 with
      weight := round6 kv.2.weight }))⟩) := by
  induction es generalizing acc with
  | nil => simp [List.foldlM_nil, except_pure]
  | cons kv es ih =>
    obtain ⟨h1n, h1l, h2n, h2l, hkey, hord⟩ := hed kv (by simp)
    have hg1 : pyGet? NS kv.2.node1 =
        some (NS.getD kv.2.node1.toNat default) := pyGet?_getD h1n h1l
    have hg2 : pyGet? NS kv.2.node2 =
        some (NS.getD kv.2.node2.toNat default) := pyGet?_getD h2n h2l
    have hn1 : (NS.getD kv.2.node1.toNat default).index = kv.2.node1 := by
      have h := hidx kv.2.node1.toNat (by omega)
      rwa [Int.toNat_of_nonneg h1n] at h
    have hn2 : (NS.getD kv.2.node2.toNat default).index = kv.2.node2 := by
      have h := hidx kv.2.node2.toNat (by omega)
      rwa [Int.toNat_of_nonneg h2n] at h
    have hnotin : ∀ e0 ∈ acc, e0.1 ≠ kv.1 := by
      rw [List.map_append, List.map_cons, List.nodup_append] at hkeys
      obtain ⟨-, -, hdisj⟩ := hkeys
      intro e0 he0 heq
      exact hdisj (List.mem_map_of_mem Prod.fst he0)
        (by rw [heq]; exact List.mem_cons_self _ _)
    have hstep : graphReaderStep (RState.edge, (⟨NS, acc⟩ : CGraph))
        (GLine.edgeLine kv.2.node1 kv.2.node2 kv.2.order
          (round6 kv.2.weight)) =
        .ok (.edge, ⟨NS, acc ++
          [(kv.1, { kv.2 with weight := round6 kv.2.weight })]⟩) := by
      unfold graphReaderStep
      simp only [hg1, hg2]
      rw [hn1, hn2, if_pos hord, ← hkey,
        dictSet_append acc kv.1 _ hnotin]
    rw [List.map_cons, List.foldlM_cons, hstep, except_bind_ok]
    have hed' : ∀ kv' ∈ es,
        0 ≤ kv'.2.node1 ∧ kv'.2.node1 < (NS.length : ℤ) ∧
        0 ≤ kv'.2.node2 ∧ kv'.2.node2 < (NS.length : ℤ) ∧
        kv'.1 = ((NS.getD kv'.2.node1.toNat default).composition,
          (NS.getD kv'.2.node2.toNat default).composition) ∧
        0 < kv'.2.order :=
      fun kv' hkv' => hed kv' (List.mem_cons_of_mem _ hkv')
    have hkeys' : (((acc ++
        [(kv.1, { kv.2 with weight := round6 kv.2.weight })]) ++ es).map
          Prod.fst).Nodup := by
      have hsame : (((acc ++
          [(kv.1, { kv.2 with weight := round6 kv.2.weight })]) ++ es).map
            Prod.fst) = ((acc ++ kv :: es).map Prod.fst) := by
        simp
      rw [hsame]
      exact hkeys
    rw [ih _ hed' hkeys']
    simp [List.append_assoc]

/-- **C5** counterexample.  The claim says write-then-read reproduces every
per-node `(composition, score)` pair exactly.  A single node with score
`1e-7` is written by `"%f"` as `0.000000` (six fractional digits), and the
reader parses the score back as `0.0`, so the round-tripped graph differs
from the original. -/
theorem claim_C5_counterexample :
    graphReader (graphWriter cexC5Graph) =
      .ok (⟨[⟨"Hex1", 0, 0⟩], []⟩ : CGraph) ∧
    (⟨[⟨"Hex1", 0, 0⟩], []⟩ : CGraph) ≠ cexC5Graph := by
  refine ⟨by decide, by decide⟩

/-- **C5** amended: the round trip reproduces the node count, the edge
count, every composition, every index and every edge order exactly, and
reproduces scores and weights *rounded to six fractional digits* (the `%f`
resolution) — i.e. reading back the written file yields `roundGraph g`, for
any graph satisfying the source invariants: node `index` equals list
position, edge endpoints are in-range indices whose stored key is the
endpoint-composition pair, edge orders are positive (the constructor
guarantee), and the `EdgeSet` dict keys are distinct. -/
theorem claim_C5_amended (g : CGraph)
    (hidx : ∀ k, k < g.nodes.length →
      (g.nodes.getD k default).index = (k : ℤ))
    (hed : ∀ kv ∈ g.edges,
      0 ≤ kv.2.node1 ∧ kv.2.node1 < (g.nodes.length : ℤ) ∧
      0 ≤ kv.2.node2 ∧ kv.2.node2 < (g.nodes.length : ℤ) ∧
      kv.1 = ((g.nodes.getD kv.2.node1.toNat default).composition,
        (g.nodes.getD kv.2.node2.toNat default).composition) ∧
      0 < kv.2.order)
    (hkeys : (g.edges.map Prod.fst).Nodup) :
    graphReader (graphWriter g) = .ok (roundGraph g) := by
  unfold graphReader graphWriter
  rw [List.foldlM_cons]
  have s1 : graphReaderStep (RState.start, (⟨[], []⟩ : CGraph))
      (GLine.header "#COMPOSITIONGRAPH 1.0") =
      .ok (RState.start, ⟨[], []⟩) := by decide
  rw [s1, except_bind_ok, List.foldlM_cons]
  have s2 : graphReaderStep (RState.start, (⟨[], []⟩ : CGraph))
      (GLine.header "#NODE") = .ok (RState.node, ⟨[], []⟩) := by decide
  rw [s2, except_bind_ok, List.foldlM_append, foldNodeLines, except_bind_ok,
    List.foldlM_cons]
  have s3 : ∀ g' : CGraph, graphReaderStep (RState.node, g')
      (GLine.header "#EDGE") = .ok (RState.edge, g') := by
    intro g'
    have : ("#EDGE" = "#EDGE") = True := by simp
    simp [graphReaderStep]
  rw [s3, except_bind_ok]
  have hidx' : ∀ k, k < (g.nodes.map roundCGNode).length →
      (((g.nodes.map roundCGNode)).getD k
        default).index = (k : ℤ) := by
    intro k hk
    rw [List.length_map] at hk
    rw [getD_map_of_lt roundCGNode g.nodes k hk]
    simp only [roundCGNode]
    exact hidx k hk
  have hed' : ∀ kv ∈ g.edges,
      0 ≤ kv.2.node1 ∧ kv.2.node1 < (((g.nodes.map roundCGNode)).length : ℤ) ∧
      0 ≤ kv.2.node2 ∧ kv.2.node2 < (((g.nodes.map roundCGNode)).length : ℤ) ∧
      kv.1 = ((((g.nodes.map roundCGNode)).getD kv.2.node1.toNat
            default).composition,
        (((g.nodes.map roundCGNode)).getD
          kv.2.node2.toNat default).composition) ∧
      0 < kv.2.order := by
    intro kv hkv
    obtain ⟨h1n, h1l, h2n, h2l, hkey, hord⟩ := hed kv hkv
    rw [List.length_map]
    refine ⟨h1n, h1l, h2n, h2l, ?_, hord⟩
    rw [getD_map_of_lt roundCGNode g.nodes kv.2.node1.toNat (by omega),
      getD_map_of_lt roundCGNode g.nodes kv.2.node2.toNat (by omega)]
    simp only [roundCGNode]
    exact hkey
  have hfold := foldEdgeLines
    (g.nodes.map roundCGNode) hidx'
    g.edges [] hed' (by simpa using hkeys)
  rw [List.nil_append] at hfold
  simp only [List.nil_append]
  rw [hfold]
  simp [roundGraph, Except.map]

/-- `claim_C5_amended` at the two-node, one-edge graph `wC5Graph`, whose
scores and weights are representable in six decimals, so the round trip is
the identity there. -/
theorem claim_C5_amended_witness :
    graphReader (graphWriter wC5Graph) = .ok (roundGraph wC5Graph) :=
  claim_C5_amended wC5Graph (by decide) (by decide) (by decide)

/-- The truncated minimum with a finite left operand is at most it. -/
theorem untopMin_le (a : ℤ) (b : WithTop ℤ) :
    (min ((a : ℤ) : WithTop ℤ) b).untop' 0 ≤ a := by
  induction b using WithTop.recTopCoe with
  | top => rw [min_eq_left le_top, WithTop.untop'_coe]
  | coe b =>
    rw [← WithTop.coe_min, WithTop.untop'_coe]
    exact min_le_left _ _

/-- **C6** counterexample.  The claim says every pair of former neighbors
with summed removed orders below the limit ends up joined by an edge of
order at most `min(sum, Dijkstra)`.  On the triangle `u - n - v` (orders 1
and 1) with a direct `u - v` edge of order 10 and `limit = 5`:
`remove_node(n)` leaves `u - v` at order 10, because the bridging loop
skips any pair already joined by *an* edge (`if node1.edge_to(node2):
continue`) without comparing orders — although the summed removed orders
are `2 < 5` and the claim promises an edge of order at most 2. -/
theorem claim_C6_counterexample :
    removeNode cexC6Graph "n" 5 =
      ⟨["u", "v"], [⟨"u", "v", 10, 1⟩]⟩ ∧
    ((1 : ℤ) + 1) < 5 := by
  refine ⟨by decide, by decide⟩


/-- **C7.** `join_mass_shifted` step behaviour, confirmed: when `find_mass`
at `chroma.neutral_mass + adduct.mass` locates a (non-empty) chromatogram
that overlaps the accumulating chromatogram in time, the step records
`(add.key, adduct)` on the shared match *and* merges it into the
accumulation as an adduct-typed node; when the merge raises
`DuplicateNodeError`, the error — with the original chromatogram, the
attempted addition (already carrying the appended record), the accumulated
chromatogram and the implicated adduct attached — propagates to the caller
instead of being swallowed. -/
theorem claim_C7 (tol : ℚ) (m : List Chrom) (add chroma : Chrom)
    (a : Adduct) (j : ℕ)
    (hfind : findMassIdx m (chroma.neutralMass + a.mass) tol = some j)
    (hm : (m.getD j default).nodes ≠ [])
    (hov : spanOverlap add (m.getD j default) = true) :
    (∀ merged, mergeChrom add { m.getD j default with usedAsAdduct :=
        ((m.getD j default).usedAsAdduct ++ [(add.key, a.name)]) } a.name =
        .ok merged →
      joinAdductStep tol chroma (m, add) a =
        .ok (m.set j { m.getD j default with usedAsAdduct :=
            ((m.getD j default).usedAsAdduct ++ [(add.key, a.name)]) },
          { merged with
            createdAt := "join_mass_shifted"
            adducts := (merged.adducts ++ [a.name]) })) ∧
    (mergeChrom add { m.getD j default with usedAsAdduct :=
        ((m.getD j default).usedAsAdduct ++ [(add.key, a.name)]) } a.name =
        .error () →
      joinAdductStep tol chroma (m, add) a =
        .error ⟨chroma, { m.getD j default with usedAsAdduct :=
          ((m.getD j default).usedAsAdduct ++ [(add.key, a.name)]) }, add,
          a.name⟩) := by
  constructor
  · intro merged hmerge
    unfold joinAdductStep
    dsimp only
    rw [hfind]
    dsimp only
    rw [if_pos ⟨hm, hov⟩, hmerge]
  · intro hmerge
    unfold joinAdductStep
    dsimp only
    rw [hfind]
    dsimp only
    rw [if_pos ⟨hm, hov⟩, hmerge]

/-- `claim_C7` on the spec's sodium-exchange scenario: base mass 1000.0
over RT [5, 15], second chromatogram at 1022.9892 over [6, 14], adduct
mass 22.9892 — the two merge into one chromatogram whose interior nodes
are typed `Na`, and the contributor records `("c1", "Na")` in
`used_as_adduct`; `join_mass_shifted` end-to-end returns exactly that. -/
theorem claim_C7_witness :
    joinAdductStep (1/100000) sodiumBase
        ([sodiumBase, sodiumAdducted], sodiumBase) sodiumAdduct =
      .ok ([sodiumBase,
          ⟨none, "c2", sodiumAdducted.nodes, [("c1", "Na")], [], "forest"⟩],
        ⟨none, "c1", [⟨0, 5, [⟨1000, 100⟩], "Unmodified"⟩,
          ⟨2, 6, [⟨10229892/10000, 50⟩], "Na"⟩,
          ⟨3, 14, [⟨10229892/10000, 60⟩], "Na"⟩,
          ⟨1, 15, [⟨1000, 110⟩], "Unmodified"⟩], [], ["Na"],
          "join_mass_shifted"⟩) ∧
    joinMassShifted [sodiumBase, sodiumAdducted] [sodiumAdduct]
        (1/100000) =
      .ok [⟨none, "c1", [⟨0, 5, [⟨1000, 100⟩], "Unmodified"⟩,
          ⟨2, 6, [⟨10229892/10000, 50⟩], "Na"⟩,
          ⟨3, 14, [⟨10229892/10000, 60⟩], "Na"⟩,
          ⟨1, 15, [⟨1000, 110⟩], "Unmodified"⟩], [], ["Na"],
          "join_mass_shifted"⟩,
        ⟨none, "c2", sodiumAdducted.nodes, [("c1", "Na")], [],
          "forest"⟩] := by
  constructor
  · have h := (claim_C7 (1/100000) [sodiumBase, sodiumAdducted] sodiumBase
      sodiumBase sodiumAdduct 1 (by decide) (by decide) (by decide)).1
      ⟨none, "c1", [⟨0, 5, [⟨1000, 100⟩], "Unmodified"⟩,
        ⟨2, 6, [⟨10229892/10000, 50⟩], "Na"⟩,
        ⟨3, 14, [⟨10229892/10000, 60⟩], "Na"⟩,
        ⟨1, 15, [⟨1000, 110⟩], "Unmodified"⟩], [], [], "merge"⟩ (by decide)
    exact h.trans (by decide)
  · decide

/-- **C8.** `prune_bad_adduct_branches` per-contributor behaviour,
confirmed: when the key map holds the owning key and a group member
overlaps the contributor in time, then (i) if the contributor scores
strictly higher, the owner's entry is replaced — provided the masked
result is non-empty — by `mask_subsequence(owner, contributor)` at the
owner's score, the key is marked updated, and the pair is *not* kept, so
the contributor sheds the adduct attribution and retains its separate
identity; (ii) otherwise the pair joins `keepers` (the contributor's claim
is dropped: it stays recorded as an adduct of the owner); and (iii) the
masked chromatogram's nodes are exactly the owner's nodes minus the
contributor's. -/
theorem claim_C8 (caseS : Sol) (km : List (String × List Sol))
    (updated : List String) (keepers : List (String × String))
    (pair : String × String) (group : List Sol) (ownerItem : Sol)
    (hlk : lookupKM km pair.1 = some group)
    (hov : linearSearch group caseS.chromatogram.startTime
      caseS.chromatogram.endTime = some ownerItem) :
    (ownerItem.score < caseS.score →
      pruneStep caseS (km, updated, keepers) pair =
        ((if (maskSubsequence ownerItem.chromatogram
              caseS.chromatogram).nodes.length ≠ 0
          then dictSet km pair.1 (replaceSol group ownerItem
            ⟨maskSubsequence ownerItem.chromatogram caseS.chromatogram,
              ownerItem.score⟩)
          else km), insertSet updated pair.1, keepers)) ∧
    (¬ ownerItem.score < caseS.score →
      pruneStep caseS (km, updated, keepers) pair =
        (km, updated, keepers ++ [pair])) ∧
    (∀ n, n ∈ (maskSubsequence ownerItem.chromatogram
        caseS.chromatogram).nodes ↔
      (n ∈ ownerItem.chromatogram.nodes ∧
        n ∉ caseS.chromatogram.nodes)) := by
  refine ⟨?_, ?_, ?_⟩
  · intro hsc
    unfold pruneStep
    dsimp only
    rw [hlk]
    dsimp only
    rw [hov]
    dsimp only
    rw [if_pos hsc]
  · intro hsc
    unfold pruneStep
    dsimp only
    rw [hlk]
    dsimp only
    rw [hov]
    dsimp only
    rw [if_neg hsc]
  · intro n
    unfold maskSubsequence
    dsimp only
    rw [List.mem_filter]
    simp

/-- `claim_C8` on the spec's pruning scenario: a contributor scored 0.9
folded into an owner scored 0.3 over an overlapping window.  The owner's
entry is replaced by the masked chromatogram (the owner minus the shared
node, at the owner's score 0.3), the owning key is marked updated, no pair
is kept — and the full case pass leaves the contributor with an empty
`used_as_adduct`, its independent identity restored. -/
theorem claim_C8_witness :
    pruneStep ⟨cexC8Contrib, 9/10⟩
        ([("a", [⟨cexC8Owner, 3/10⟩])], [], []) ("a", "Na") =
      ([("a", [⟨⟨none, "a", [⟨0, 0, [⟨1000, 100⟩], "Unmodified"⟩], [], [],
          "mask_subsequence"⟩, 3/10⟩])], ["a"], []) ∧
    pruneCase [("a", [⟨cexC8Owner, 3/10⟩])] [] ⟨cexC8Contrib, 9/10⟩ =
      ([("a", [⟨⟨none, "a", [⟨0, 0, [⟨1000, 100⟩], "Unmodified"⟩], [], [],
          "mask_subsequence"⟩, 3/10⟩])], ["a"],
        ⟨⟨none, "b", [⟨1, 5, [⟨1022, 50⟩], "Unmodified"⟩], [], [],
          "forest"⟩, 9/10⟩) := by
  constructor
  · have h := (claim_C8 ⟨cexC8Contrib, 9/10⟩
      [("a", [⟨cexC8Owner, 3/10⟩])] [] [] ("a", "Na")
      [⟨cexC8Owner, 3/10⟩] ⟨cexC8Owner, 3/10⟩ (by decide) (by decide)).1
      (by norm_num)
    exact h.trans (by decide)
  · decide

/-- `edge_to` is insensitive to the argument order (the lookup normalizes
the pair by index) as long as the two indices differ. -/
theorem edgeTo_swap (h : NGraph) (u v : String)
    (hne : h.nodes.indexOf u ≠ h.nodes.indexOf v) :
    edgeTo h v u = edgeTo h u v := by
  unfold edgeTo
  dsimp only
  rcases Nat.lt_or_ge (h.nodes.indexOf u) (h.nodes.indexOf v) with hlt | hge
  · rw [if_pos hlt, if_neg (by omega)]
  · have hlt : h.nodes.indexOf v < h.nodes.indexOf u := by omega
    rw [if_neg (by omega), if_pos hlt]

/-- Overwriting the entries at one endpoint pair does not change a lookup
at a different endpoint pair. -/
theorem find?_map_overwrite (es : List NEdge) (newE : NEdge) (x y : String)
    (hne : ¬ (newE.a = x ∧ newE.b = y)) :
    (es.map (fun e0 => if e0.a = newE.a ∧ e0.b = newE.b then newE
      else e0)).find? (fun e => decide (e.a = x ∧ e.b = y)) =
    es.find? (fun e => decide (e.a = x ∧ e.b = y)) := by
  induction es with
  | nil => rfl
  | cons e0 es ih =>
    rw [List.map_cons, List.find?_cons, List.find?_cons]
    by_cases hrep : e0.a = newE.a ∧ e0.b = newE.b
    · rw [if_pos hrep]
      have h1 : (decide (newE.a = x ∧ newE.b = y)) = false := by
        simpa using hne
      have h2 : (decide (e0.a = x ∧ e0.b = y)) = false := by
        rw [hrep.1, hrep.2]
        simpa using hne
      rw [h1, h2]
      exact ih
    · rw [if_neg hrep]
      cases hP : (decide (e0.a = x ∧ e0.b = y)) with
      | true => rfl
      | false => exact ih

/-- `add_if_shorter` at one endpoint pair does not change a lookup at a
different endpoint pair. -/
theorem addIfShorter_find?_other (es : List NEdge) (newE : NEdge)
    (x y : String) (hne : ¬ (newE.a = x ∧ newE.b = y)) :
    (addIfShorter es newE).find? (fun e => decide (e.a = x ∧ e.b = y)) =
    es.find? (fun e => decide (e.a = x ∧ e.b = y)) := by
  unfold addIfShorter
  cases hf : es.find? (fun e0 => decide (e0.a = newE.a ∧ e0.b = newE.b))
      with
  | none =>
    rw [List.find?_append]
    have h1 : ([newE].find? (fun e => decide (e.a = x ∧ e.b = y))) =
        none := by
      rw [List.find?_cons]
      have : (decide (newE.a = x ∧ newE.b = y)) = false := by simpa using hne
      rw [this]
      rfl
    rw [h1]
    exact Option.or_none
  | some prev =>
    dsimp only
    by_cases hord : prev.order < newE.order
    · rw [if_pos hord]
    · rw [if_neg hord]
      exact find?_map_overwrite es newE x y hne

/-- `add_if_shorter` into a store missing the new edge's endpoint pair
makes the new edge the lookup result at that pair. -/
theorem addIfShorter_find?_self (es : List NEdge) (newE : NEdge)
    (hf : es.find? (fun e0 => decide (e0.a = newE.a ∧ e0.b = newE.b)) =
      none) :
    (addIfShorter es newE).find?
      (fun e => decide (e.a = newE.a ∧ e.b = newE.b)) = some newE := by
  unfold addIfShorter
  rw [hf, List.find?_append, hf]
  rw [Option.none_or, List.find?_cons]
  have : (decide (newE.a = newE.a ∧ newE.b = newE.b)) = true := by simp
  rw [this]

/-- The bridged order lies between 1 and the removed-order sum. -/
theorem bridgedOrder_bounds (sum limit : ℤ) (hmid : NGraph) (s t : String)
    (h1 : 1 ≤ sum) :
    1 ≤ bridgedOrder sum limit hmid s t ∧
    bridgedOrder sum limit hmid s t ≤ sum := by
  unfold bridgedOrder
  dsimp only
  constructor
  · split
    · omega
    · omega
  · split
    · exact untopMin_le _ _
    · exact h1

/-- Two index-normalized pairs are equal only when the underlying
unordered pairs coincide. -/
theorem normPair_set_eq {c d : Prop} [Decidable c] [Decidable d]
    {a b x y : String}
    (h : (if c then (b, a) else (a, b)) = (if d then (y, x) else (x, y))) :
    (a = x ∧ b = y) ∨ (a = y ∧ b = x) := by
  split at h <;> split at h <;> rw [Prod.mk.injEq] at h
  · exact Or.inl ⟨h.2, h.1⟩
  · exact Or.inr ⟨h.2, h.1⟩
  · exact Or.inr ⟨h.1, h.2⟩
  · exact Or.inl ⟨h.1, h.2⟩

/-- Equal unordered endpoint pairs give equal seen keys. -/
theorem key_of_set_eq (NS : List String) {tA tB u v : String}
    (hset : (tA = u ∧ tB = v) ∨ (tA = v ∧ tB = u)) :
    (min (NS.indexOf tA) (NS.indexOf tB),
      max (NS.indexOf tA) (NS.indexOf tB)) =
    (min (NS.indexOf u) (NS.indexOf v),
      max (NS.indexOf u) (NS.indexOf v)) := by
  rcases hset with ⟨h1, h2⟩ | ⟨h1, h2⟩
  · rw [h1, h2]
  · rw [h1, h2, min_comm, max_comm]

/-- The bridging loop never changes the node list. -/
theorem bridgeStep_nodes (comp : String) (limit : ℤ)
    (st : List (ℕ × ℕ) × NGraph) (eA eB : NEdge) :
    (bridgeStep comp limit st eA eB).2.nodes = st.2.nodes := by
  unfold bridgeStep
  dsimp only
  repeat' split
  all_goals rfl

/-- The `seen` key set only grows. -/
theorem bridgeStep_seen_sub (comp : String) (limit : ℤ)
    (st : List (ℕ × ℕ) × NGraph) (eA eB : NEdge) :
    ∀ k ∈ st.1, k ∈ (bridgeStep comp limit st eA eB).1 := by
  intro k hk
  unfold bridgeStep
  dsimp only
  repeat' split
  all_goals first | exact hk | exact List.mem_cons_of_mem _ hk

/-- A doubly nested fold is the fold over the flattened pair list. -/
theorem foldl_nested {α σ : Type} (f : σ → α → α → σ) :
    ∀ (l1 l2 : List α) (init : σ),
    l1.foldl (fun st a => l2.foldl (fun st b => f st a b) st) init =
    (l1.flatMap (fun a => l2.map (fun b => (a, b)))).foldl
      (fun st p => f st p.1 p.2) init := by
  intro l1
  induction l1 with
  | nil => intro l2 init; rfl
  | cons a l1 ih =>
    intro l2 init
    rw [List.foldl_cons, List.flatMap_cons, List.foldl_append, ih,
      List.foldl_map]

/-- Edges equal in Python's sense lead to the same neighbor. -/
theorem traverse_eq_of_edgeEq {eA eB : NEdge} (comp : String)
    (h : edgeEq eA eB = true) :
    traverseEdge eA comp = traverseEdge eB comp := by
  unfold edgeEq at h
  rw [decide_eq_true_eq] at h
  obtain ⟨ha, hb, -⟩ := h
  unfold traverseEdge
  rw [ha, hb]

/-- `keyOf` depends only on the node list. -/
theorem keyOf_congr {g1 g2 : NGraph} (h : g1.nodes = g2.nodes)
    (x y : String) : keyOf g1 x y = keyOf g2 x y := by
  unfold keyOf
  rw [h]

/-- When the pair is distinct, unseen, below the limit and not yet joined,
`bridgeStep` fires: it marks the key seen and adds the bridging edge. -/
theorem bridgeStep_fire (comp : String) (limit : ℤ)
    (st : List (ℕ × ℕ) × NGraph) (eA eB : NEdge)
    (h1 : edgeEq eA eB = false)
    (h2 : keyOf st.2 (traverseEdge eA comp) (traverseEdge eB comp) ∉ st.1)
    (h3 : eA.order + eB.order < limit)
    (h4 : edgeTo st.2 (traverseEdge eA comp) (traverseEdge eB comp) =
      none) :
    bridgeStep comp limit st eA eB =
      (keyOf st.2 (traverseEdge eA comp) (traverseEdge eB comp) :: st.1,
       ⟨st.2.nodes, addIfShorter st.2.edges
         (bridgeEdgeOf limit st.2 (traverseEdge eA comp)
           (traverseEdge eB comp) (eA.order + eB.order))⟩) := by
  unfold keyOf at h2
  unfold bridgeStep keyOf bridgeEdgeOf
  rw [if_neg (by simp [h1])]
  dsimp only
  rw [if_neg h2, if_neg (not_le.mpr h3), h4]
  dsimp only
  rw [if_pos (lt_of_le_of_lt (min_le_left _ _) (WithTop.coe_lt_coe.2 h3))]

/-- Every `bridgeStep` outcome: unchanged, key marked seen with the graph
untouched, or key marked seen with the bridging edge added — and in the
latter two cases the key was not yet seen. -/
theorem bridgeStep_shape (comp : String) (limit : ℤ)
    (st : List (ℕ × ℕ) × NGraph) (eA eB : NEdge) :
    bridgeStep comp limit st eA eB = st ∨
    (keyOf st.2 (traverseEdge eA comp) (traverseEdge eB comp) ∉ st.1 ∧
      bridgeStep comp limit st eA eB =
        (keyOf st.2 (traverseEdge eA comp) (traverseEdge eB comp) :: st.1,
          st.2)) ∨
    (keyOf st.2 (traverseEdge eA comp) (traverseEdge eB comp) ∉ st.1 ∧
      bridgeStep comp limit st eA eB =
        (keyOf st.2 (traverseEdge eA comp) (traverseEdge eB comp) :: st.1,
          ⟨st.2.nodes, addIfShorter st.2.edges
            (bridgeEdgeOf limit st.2 (traverseEdge eA comp)
              (traverseEdge eB comp) (eA.order + eB.order))⟩)) := by
  unfold bridgeStep keyOf bridgeEdgeOf
  by_cases heq : edgeEq eA eB = true
  · rw [if_pos heq]
    exact Or.inl rfl
  rw [if_neg heq]
  dsimp only
  by_cases hk : ((min (st.2.nodes.indexOf (traverseEdge eA comp))
      (st.2.nodes.indexOf (traverseEdge eB comp)),
    max (st.2.nodes.indexOf (traverseEdge eA comp))
      (st.2.nodes.indexOf (traverseEdge eB comp))) : ℕ × ℕ) ∈ st.1
  · rw [if_pos hk]
    exact Or.inl rfl
  rw [if_neg hk]
  by_cases hlim : limit ≤ eA.order + eB.order
  · rw [if_pos hlim]
    exact Or.inr (Or.inl ⟨hk, rfl⟩)
  rw [if_neg hlim]
  cases hET : edgeTo st.2 (traverseEdge eA comp) (traverseEdge eB comp)
      with
  | some ed0 =>
    exact Or.inr (Or.inl ⟨hk, rfl⟩)
  | none =>
    dsimp only
    by_cases hpl : (min (((eA.order + eB.order : ℤ)) : WithTop ℤ)
        (dijkstraSearch st.2 (traverseEdge eA comp)
          (traverseEdge eB comp)
          (((min (eA.order + eB.order + 1) limit) : ℤ) : WithTop ℤ))) <
        ((limit : ℤ) : WithTop ℤ)
    · rw [if_pos hpl]
      exact Or.inr (Or.inr ⟨hk, rfl⟩)
    · rw [if_neg hpl]
      exact Or.inr (Or.inl ⟨hk, rfl⟩)

/-- Adding an edge at a different endpoint pair leaves `edge_to`
unchanged. -/
theorem edgeTo_addIfShorter_other (h : NGraph) (newE : NEdge)
    (u v : String)
    (hne : ¬ (newE.a = (if h.nodes.indexOf v < h.nodes.indexOf u
        then (v, u) else (u, v)).1 ∧
      newE.b = (if h.nodes.indexOf v < h.nodes.indexOf u
        then (v, u) else (u, v)).2)) :
    edgeTo (⟨h.nodes, addIfShorter h.edges newE⟩ : NGraph) u v =
      edgeTo h u v := by
  unfold edgeTo
  dsimp only
  exact addIfShorter_find?_other h.edges newE _ _ hne

/-- Adding an edge at exactly the looked-up endpoint pair, when no such
edge existed, makes it the `edge_to` result. -/
theorem edgeTo_addIfShorter_self (h : NGraph) (newE : NEdge)
    (u v : String)
    (ha : newE.a = (if h.nodes.indexOf v < h.nodes.indexOf u
        then (v, u) else (u, v)).1)
    (hb : newE.b = (if h.nodes.indexOf v < h.nodes.indexOf u
        then (v, u) else (u, v)).2)
    (hnone : edgeTo h u v = none) :
    edgeTo (⟨h.nodes, addIfShorter h.edges newE⟩ : NGraph) u v =
      some newE := by
  unfold edgeTo at hnone ⊢
  dsimp only at hnone ⊢
  rw [← ha, ← hb] at hnone ⊢
  exact addIfShorter_find?_self h.edges newE hnone

/-- Equal seen keys identify the unordered neighbor pair, for pairs whose
reference endpoints are in the node list. -/
theorem keyOf_eq_pair {h : NGraph} {tA tB u v : String}
    (hmu : u ∈ h.nodes) (hmv : v ∈ h.nodes)
    (hk : keyOf h tA tB = keyOf h u v) :
    (tA = u ∧ tB = v) ∨ (tA = v ∧ tB = u) := by
  unfold keyOf at hk
  have h1 := congrArg Prod.fst hk
  have h2 := congrArg Prod.snd hk
  dsimp at h1 h2
  have hiul : h.nodes.indexOf u < h.nodes.length :=
    List.indexOf_lt_length.2 hmu
  have hivl : h.nodes.indexOf v < h.nodes.length :=
    List.indexOf_lt_length.2 hmv
  have hdisj : (h.nodes.indexOf tA = h.nodes.indexOf u ∧
      h.nodes.indexOf tB = h.nodes.indexOf v) ∨
      (h.nodes.indexOf tA = h.nodes.indexOf v ∧
      h.nodes.indexOf tB = h.nodes.indexOf u) := by omega
  rcases hdisj with ⟨hA1, hB1⟩ | ⟨hA1, hB1⟩
  · refine Or.inl ⟨?_, ?_⟩
    · have hm : tA ∈ h.nodes := List.indexOf_lt_length.1 (by omega)
      exact (List.indexOf_inj hm hmu).1 hA1
    · have hm : tB ∈ h.nodes := List.indexOf_lt_length.1 (by omega)
      exact (List.indexOf_inj hm hmv).1 hB1
  · refine Or.inr ⟨?_, ?_⟩
    · have hm : tA ∈ h.nodes := List.indexOf_lt_length.1 (by omega)
      exact (List.indexOf_inj hm hmv).1 hA1
    · have hm : tB ∈ h.nodes := List.indexOf_lt_length.1 (by omega)
      exact (List.indexOf_inj hm hmu).1 hB1

/-- A bridging edge's endpoint pair is the index-normalized pair that
`edge_to` looks up, whenever the bridged pair is `{u, v}`. -/
theorem bridgeEdgeOf_pair_eq {h : NGraph} {tA tB u v : String}
    (limit old : ℤ)
    (hne : h.nodes.indexOf u ≠ h.nodes.indexOf v)
    (hset : (tA = u ∧ tB = v) ∨ (tA = v ∧ tB = u)) :
    (bridgeEdgeOf limit h tA tB old).a =
      (if h.nodes.indexOf v < h.nodes.indexOf u then (v, u)
        else (u, v)).1 ∧
    (bridgeEdgeOf limit h tA tB old).b =
      (if h.nodes.indexOf v < h.nodes.indexOf u then (v, u)
        else (u, v)).2 := by
  unfold bridgeEdgeOf
  dsimp only
  rcases hset with ⟨h1, h2⟩ | ⟨h1, h2⟩
  · rw [h1, h2]
    exact ⟨rfl, rfl⟩
  · rw [h1, h2]
    rcases Nat.lt_or_ge (h.nodes.indexOf u) (h.nodes.indexOf v) with
        hlt | hge
    · rw [if_pos hlt, if_neg (by omega)]
      exact ⟨rfl, rfl⟩
    · have hlt : h.nodes.indexOf v < h.nodes.indexOf u := by omega
      rw [if_neg (by omega), if_pos hlt]
      exact ⟨rfl, rfl⟩

/-- Conversely, a bridging edge landing on the pair `edge_to u v` looks up
forces the bridged pair's key to be the `{u, v}` key. -/
theorem keyOf_of_bridgePair {h : NGraph} {tA tB u v : String}
    (limit old : ℤ)
    (ha : (bridgeEdgeOf limit h tA tB old).a =
      (if h.nodes.indexOf v < h.nodes.indexOf u then (v, u)
        else (u, v)).1)
    (hb : (bridgeEdgeOf limit h tA tB old).b =
      (if h.nodes.indexOf v < h.nodes.indexOf u then (v, u)
        else (u, v)).2) :
    keyOf h tA tB = keyOf h u v := by
  unfold bridgeEdgeOf at ha hb
  dsimp only at ha hb
  have hpair : ((if h.nodes.indexOf tB < h.nodes.indexOf tA
      then (tB, tA) else (tA, tB)) : String × String) =
      (if h.nodes.indexOf v < h.nodes.indexOf u then (v, u)
        else (u, v)) := Prod.ext ha hb
  have hset := normPair_set_eq hpair
  unfold keyOf
  exact key_of_set_eq h.nodes hset

/-- One `bridgeStep` preserves the pair-loop invariant for the fixed pair
`{u, v}`: a step on the very pair `{u, v}` (in either orientation)
transitions from the unseen/unjoined state to the seen/bridged state or
keeps the latter, and a step on any other pair of removed edges touches
neither the `{u, v}` key nor the `{u, v}` edge slot. -/
theorem bridgeStep_inv
    (g : NGraph) (comp : String) (limit : ℤ) (e1 e2 : NEdge) (u v : String)
    (hinj : ∀ eA ∈ incidentEdges g comp, ∀ eB ∈ incidentEdges g comp,
      traverseEdge eA comp = traverseEdge eB comp → eA = eB)
    (hsub1 : e1 ∈ incidentEdges g comp)
    (hsub2 : e2 ∈ incidentEdges g comp)
    (hu : traverseEdge e1 comp = u) (hv : traverseEdge e2 comp = v)
    (huv : u ≠ v)
    (hmu : u ∈ (removeNodeBase g comp).nodes)
    (hmv : v ∈ (removeNodeBase g comp).nodes)
    (hsum : e1.order + e2.order < limit)
    (eA eB : NEdge)
    (hA : eA ∈ incidentEdges g comp) (hB : eB ∈ incidentEdges g comp)
    (st : List (ℕ × ℕ) × NGraph)
    (hinv : bridgeInv (removeNodeBase g comp) (e1.order + e2.order) limit
      u v (keyOf (removeNodeBase g comp) u v) st) :
    bridgeInv (removeNodeBase g comp) (e1.order + e2.order) limit u v
      (keyOf (removeNodeBase g comp) u v)
      (bridgeStep comp limit st eA eB) := by
  unfold bridgeInv at hinv ⊢
  obtain ⟨hN, hcase⟩ := hinv
  have hmu2 : u ∈ st.2.nodes := by rw [hN]; exact hmu
  have hmv2 : v ∈ st.2.nodes := by rw [hN]; exact hmv
  have hKb : keyOf st.2 u v = keyOf (removeNodeBase g comp) u v :=
    keyOf_congr hN u v
  have hidxne : st.2.nodes.indexOf u ≠ st.2.nodes.indexOf v :=
    fun h => huv ((List.indexOf_inj hmu2 hmv2).1 h)
  by_cases hkK : keyOf st.2 (traverseEdge eA comp) (traverseEdge eB comp)
      = keyOf st.2 u v
  · have hset := keyOf_eq_pair hmu2 hmv2 hkK
    have hAB : (eA = e1 ∧ eB = e2) ∨ (eA = e2 ∧ eB = e1) := by
      rcases hset with ⟨h1, h2⟩ | ⟨h1, h2⟩
      · exact Or.inl ⟨hinj eA hA e1 hsub1 (by rw [h1, hu]),
          hinj eB hB e2 hsub2 (by rw [h2, hv])⟩
      · exact Or.inr ⟨hinj eA hA e2 hsub2 (by rw [h1, hv]),
          hinj eB hB e1 hsub1 (by rw [h2, hu])⟩
    have hsumAB : eA.order + eB.order = e1.order + e2.order := by
      rcases hAB with ⟨h1, h2⟩ | ⟨h1, h2⟩
      · rw [h1, h2]
      · rw [h1, h2, add_comm]
    rcases hcase with ⟨hKn, hnone⟩ | ⟨hKin, hed⟩
    · have h1f : edgeEq eA eB = false := by
        cases hEE : edgeEq eA eB with
        | false => rfl
        | true =>
          exfalso
          have ht := traverse_eq_of_edgeEq comp hEE
          rcases hset with ⟨ha, hb⟩ | ⟨ha, hb⟩
          · exact huv (by rw [← ha, ht]; exact hb)
          · exact huv (by rw [← hb, ← ht]; exact ha)
      have h2f : keyOf st.2 (traverseEdge eA comp)
          (traverseEdge eB comp) ∉ st.1 := by
        rw [hkK, hKb]; exact hKn
      have h3f : eA.order + eB.order < limit := by omega
      have h4f : edgeTo st.2 (traverseEdge eA comp)
          (traverseEdge eB comp) = none := by
        rcases hset with ⟨ha, hb⟩ | ⟨ha, hb⟩
        · rw [ha, hb]; exact hnone
        · rw [ha, hb, edgeTo_swap st.2 u v hidxne]; exact hnone
      rw [bridgeStep_fire comp limit st eA eB h1f h2f h3f h4f]
      have hpair := bridgeEdgeOf_pair_eq (h := st.2) limit
        (eA.order + eB.order) hidxne hset
      refine ⟨hN, Or.inr ⟨List.mem_cons.2 (Or.inl
          (by rw [← hKb, ← hkK])),
        bridgeEdgeOf limit st.2 (traverseEdge eA comp)
          (traverseEdge eB comp) (eA.order + eB.order), ?_, ?_⟩⟩
      · exact edgeTo_addIfShorter_self st.2 _ u v hpair.1 hpair.2 hnone
      · refine ⟨st.2, traverseEdge eA comp, traverseEdge eB comp, hset,
          hN, rfl, ?_⟩
        rw [hsumAB]
        unfold bridgeEdgeOf bridgedOrder
        rfl
    · rcases bridgeStep_shape comp limit st eA eB with
          hsh | ⟨hnot, hsh⟩ | ⟨hnot, hsh⟩
      · rw [hsh]; exact ⟨hN, Or.inr ⟨hKin, hed⟩⟩
      · exact absurd (by rw [hkK, hKb]; exact hKin) hnot
      · exact absurd (by rw [hkK, hKb]; exact hKin) hnot
  · rcases bridgeStep_shape comp limit st eA eB with
        hsh | ⟨hnot, hsh⟩ | ⟨hnot, hsh⟩
    · rw [hsh]; exact ⟨hN, hcase⟩
    · rw [hsh]
      refine ⟨hN, ?_⟩
      rcases hcase with ⟨hKn, hnone⟩ | ⟨hKin, hed⟩
      · refine Or.inl ⟨?_, hnone⟩
        intro hmem
        rcases List.mem_cons.1 hmem with hh | hh
        · exact hkK (hh.symm.trans hKb.symm)
        · exact hKn hh
      · exact Or.inr ⟨List.mem_cons_of_mem _ hKin, hed⟩
    · rw [hsh]
      have hne : ¬ ((bridgeEdgeOf limit st.2 (traverseEdge eA comp)
          (traverseEdge eB comp) (eA.order + eB.order)).a =
          (if st.2.nodes.indexOf v < st.2.nodes.indexOf u then (v, u)
            else (u, v)).1 ∧
        (bridgeEdgeOf limit st.2 (traverseEdge eA comp)
          (traverseEdge eB comp) (eA.order + eB.order)).b =
          (if st.2.nodes.indexOf v < st.2.nodes.indexOf u then (v, u)
            else (u, v)).2) := by
        rintro ⟨ha, hb⟩
        exact hkK (keyOf_of_bridgePair limit (eA.order + eB.order) ha hb)
      have hET := edgeTo_addIfShorter_other st.2 _ u v hne
      refine ⟨hN, ?_⟩
      rcases hcase with ⟨hKn, hnone⟩ | ⟨hKin, hed⟩
      · refine Or.inl ⟨?_, by rw [hET]; exact hnone⟩
        intro hmem
        rcases List.mem_cons.1 hmem with hh | hh
        · exact hkK (hh.symm.trans hKb.symm)
        · exact hKn hh
      · obtain ⟨ed, hedq, hspec⟩ := hed
        exact Or.inr ⟨List.mem_cons_of_mem _ hKin, ed,
          by rw [hET]; exact hedq, hspec⟩

/-- Processing the pair `(e1, e2)` itself from an invariant state leaves
the `{u, v}` key seen (firing the bridge if it had not fired before). -/
theorem bridgeStep_hit
    (g : NGraph) (comp : String) (limit : ℤ) (e1 e2 : NEdge) (u v : String)
    (hu : traverseEdge e1 comp = u) (hv : traverseEdge e2 comp = v)
    (huv : u ≠ v)
    (hsum : e1.order + e2.order < limit)
    (st : List (ℕ × ℕ) × NGraph)
    (hinv : bridgeInv (removeNodeBase g comp) (e1.order + e2.order) limit
      u v (keyOf (removeNodeBase g comp) u v) st) :
    keyOf (removeNodeBase g comp) u v ∈
      (bridgeStep comp limit st e1 e2).1 := by
  unfold bridgeInv at hinv
  obtain ⟨hN, hcase⟩ := hinv
  have hKb : keyOf st.2 u v = keyOf (removeNodeBase g comp) u v :=
    keyOf_congr hN u v
  rcases hcase with ⟨hKn, hnone⟩ | ⟨hKin, -⟩
  · have h1f : edgeEq e1 e2 = false := by
      cases hEE : edgeEq e1 e2 with
      | false => rfl
      | true =>
        exact absurd (by rw [← hu, traverse_eq_of_edgeEq comp hEE, hv])
          huv
    have h2f : keyOf st.2 (traverseEdge e1 comp)
        (traverseEdge e2 comp) ∉ st.1 := by
      rw [hu, hv, hKb]; exact hKn
    have h4f : edgeTo st.2 (traverseEdge e1 comp)
        (traverseEdge e2 comp) = none := by
      rw [hu, hv]; exact hnone
    rw [bridgeStep_fire comp limit st e1 e2 h1f h2f hsum h4f]
    exact List.mem_cons.2 (Or.inl (by rw [hu, hv, hKb]))
  · exact bridgeStep_seen_sub comp limit st e1 e2 _ hKin

/-- The pair loop preserves the invariant along any list of removed-edge
pairs. -/
theorem bridgeFold_inv
    (g : NGraph) (comp : String) (limit : ℤ) (e1 e2 : NEdge) (u v : String)
    (hinj : ∀ eA ∈ incidentEdges g comp, ∀ eB ∈ incidentEdges g comp,
      traverseEdge eA comp = traverseEdge eB comp → eA = eB)
    (hsub1 : e1 ∈ incidentEdges g comp)
    (hsub2 : e2 ∈ incidentEdges g comp)
    (hu : traverseEdge e1 comp = u) (hv : traverseEdge e2 comp = v)
    (huv : u ≠ v)
    (hmu : u ∈ (removeNodeBase g comp).nodes)
    (hmv : v ∈ (removeNodeBase g comp).nodes)
    (hsum : e1.order + e2.order < limit)
    (L : List (NEdge × NEdge))
    (hL : ∀ p ∈ L, p.1 ∈ incidentEdges g comp ∧
      p.2 ∈ incidentEdges g comp)
    (st : List (ℕ × ℕ) × NGraph)
    (hinv : bridgeInv (removeNodeBase g comp) (e1.order + e2.order) limit
      u v (keyOf (removeNodeBase g comp) u v) st) :
    bridgeInv (removeNodeBase g comp) (e1.order + e2.order) limit u v
      (keyOf (removeNodeBase g comp) u v)
      (L.foldl (fun st p => bridgeStep comp limit st p.1 p.2) st) := by
  induction L generalizing st with
  | nil => exact hinv
  | cons p L ih =>
    rw [List.foldl_cons]
    exact ih (fun q hq => hL q (List.mem_cons_of_mem _ hq)) _
      (bridgeStep_inv g comp limit e1 e2 u v hinj hsub1 hsub2 hu hv huv
        hmu hmv hsum p.1 p.2 (hL p (List.mem_cons_self _ _)).1
        (hL p (List.mem_cons_self _ _)).2 st hinv)

/-- A seen key survives the rest of the pair loop. -/
theorem bridgeFold_seen (comp : String) (limit : ℤ)
    (L : List (NEdge × NEdge)) (st : List (ℕ × ℕ) × NGraph) (k : ℕ × ℕ)
    (hk : k ∈ st.1) :
    k ∈ (L.foldl (fun st p => bridgeStep comp limit st p.1 p.2) st).1 := by
  induction L generalizing st with
  | nil => exact hk
  | cons p L ih =>
    rw [List.foldl_cons]
    exact ih _ (bridgeStep_seen_sub comp limit st p.1 p.2 k hk)

/-- **C6** amended, for a removed node of arbitrary degree: every pair of
distinct former neighbors `u ≠ v` of the removed node (reached through two
of its removed edges) that remains in the graph, whose summed removed
orders are below the limit and that **no** edge currently joins, ends up
joined by a bridging edge of weight 1 whose order is
`min(sum, Dijkstra-distance bounded by min(sum + 1, limit))` — computed on
the working graph at the moment the pair is examined — hence at least 1
and at most the sum; but a pair already joined by *any* edge is left
untouched whatever that edge's order (the counterexample).  The
`hinj` hypothesis is the `EdgeSet` dict invariant: one stored edge per
endpoint pair, so distinct removed edges lead to distinct neighbors. -/
theorem claim_C6_amended
    (g : NGraph) (comp : String) (limit : ℤ) (e1 e2 : NEdge) (u v : String)
    (hinj : ∀ eA ∈ incidentEdges g comp, ∀ eB ∈ incidentEdges g comp,
      traverseEdge eA comp = traverseEdge eB comp → eA = eB)
    (hsub1 : e1 ∈ incidentEdges g comp)
    (hsub2 : e2 ∈ incidentEdges g comp)
    (hu : traverseEdge e1 comp = u) (hv : traverseEdge e2 comp = v)
    (huv : u ≠ v)
    (hmu : u ∈ (removeNodeBase g comp).nodes)
    (hmv : v ∈ (removeNodeBase g comp).nodes)
    (ho1 : 1 ≤ e1.order) (ho2 : 1 ≤ e2.order)
    (hsum : e1.order + e2.order < limit)
    (hnoedge : edgeTo (removeNodeBase g comp) u v = none) :
    ∃ ed, edgeTo (removeNode g comp limit) u v = some ed ∧
      bridgedEdgeSpec (removeNodeBase g comp) (e1.order + e2.order) limit
        u v ed ∧
      1 ≤ ed.order ∧ ed.order ≤ e1.order + e2.order := by
  unfold removeNode
  dsimp only
  rw [foldl_nested (fun st a b => bridgeStep comp limit st a b)
    (incidentEdges g comp) (incidentEdges g comp)
    (([], removeNodeBase g comp) : List (ℕ × ℕ) × NGraph)]
  obtain ⟨P1, P2, hdecomp⟩ := List.append_of_mem
    (show ((e1, e2) : NEdge × NEdge) ∈ (incidentEdges g comp).flatMap
        (fun a => (incidentEdges g comp).map (fun b => (a, b))) from
      List.mem_flatMap.2 ⟨e1, hsub1, List.mem_map.2 ⟨e2, hsub2, rfl⟩⟩)
  rw [hdecomp, List.foldl_append, List.foldl_cons]
  have hmemP : ∀ p ∈ (incidentEdges g comp).flatMap
      (fun a => (incidentEdges g comp).map (fun b => (a, b))),
      p.1 ∈ incidentEdges g comp ∧ p.2 ∈ incidentEdges g comp := by
    intro p hp
    rw [List.mem_flatMap] at hp
    obtain ⟨a, ha, hp⟩ := hp
    rw [List.mem_map] at hp
    obtain ⟨b, hb, rfl⟩ := hp
    exact ⟨ha, hb⟩
  have hP1 : ∀ p ∈ P1, p.1 ∈ incidentEdges g comp ∧
      p.2 ∈ incidentEdges g comp :=
    fun p hp => hmemP p (by rw [hdecomp]; exact List.mem_append_left _ hp)
  have hP2 : ∀ p ∈ P2, p.1 ∈ incidentEdges g comp ∧
      p.2 ∈ incidentEdges g comp :=
    fun p hp => hmemP p (by
      rw [hdecomp]
      exact List.mem_append_right _ (List.mem_cons_of_mem _ hp))
  have hinv0 : bridgeInv (removeNodeBase g comp) (e1.order + e2.order)
      limit u v (keyOf (removeNodeBase g comp) u v)
      ([], removeNodeBase g comp) := by
    unfold bridgeInv
    exact ⟨rfl, Or.inl ⟨List.not_mem_nil _, hnoedge⟩⟩
  have hinv1 := bridgeFold_inv g comp limit e1 e2 u v hinj hsub1 hsub2
    hu hv huv hmu hmv hsum P1 hP1 _ hinv0
  have hinv2 := bridgeStep_inv g comp limit e1 e2 u v hinj hsub1 hsub2
    hu hv huv hmu hmv hsum e1 e2 hsub1 hsub2 _ hinv1
  have hhit := bridgeStep_hit g comp limit e1 e2 u v hu hv huv hsum _
    hinv1
  have hinv3 := bridgeFold_inv g comp limit e1 e2 u v hinj hsub1 hsub2
    hu hv huv hmu hmv hsum P2 hP2 _ hinv2
  have hseen := bridgeFold_seen comp limit P2 _ _ hhit
  unfold bridgeInv at hinv3
  obtain ⟨-, hcasef⟩ := hinv3
  rcases hcasef with ⟨hKn, -⟩ | ⟨-, ed, hedq, hspec⟩
  · exact absurd hseen hKn
  · refine ⟨ed, hedq, hspec, ?_, ?_⟩
    · obtain ⟨hmid, s, t, -, -, -, hord⟩ := hspec
      rw [hord]
      exact (bridgedOrder_bounds _ limit hmid s t (by omega)).1
    · obtain ⟨hmid, s, t, -, -, -, hord⟩ := hspec
      rw [hord]
      exact (bridgedOrder_bounds _ limit hmid s t (by omega)).2

/-- `claim_C6_amended` at the path graph `u - n - v` (orders 1 and 1, no
direct edge): removing `n` bridges `u - v` with a weight-1 edge of order
between 1 and 2 — concretely, the edge `(u, v)` of order
`min(1 + 1, Dijkstra) = 2`. -/
theorem claim_C6_amended_witness :
    (∃ ed, edgeTo (removeNode wC6Graph "n" 5) "u" "v" = some ed ∧
      bridgedEdgeSpec (removeNodeBase wC6Graph "n") (1 + 1) 5 "u" "v"
        ed ∧
      1 ≤ ed.order ∧ ed.order ≤ 1 + 1) ∧
    edgeTo (removeNode wC6Graph "n" 5) "u" "v" =
      some ⟨"u", "v", 2, 1⟩ := by
  constructor
  · exact claim_C6_amended wC6Graph "n" 5 ⟨"u", "n", 1, 1⟩
      ⟨"n", "v", 1, 1⟩ "u" "v" (by decide) (by decide) (by decide)
      (by decide) (by decide) (by decide) (by decide) (by decide)
      (by decide) (by decide) (by decide) (by decide)
  · decide
